import Mathlib

/-!
# DietBot — verification of the session-scoped chat orchestration pipeline

A shallow embedding of `backend/api/chatbot.py`: the intent classifier
(`is_diet_related_question`), the duration parser (`parse_days_from_text`),
response normalization (`format_response`), the ingestion background task
(`ingest_files_background`), session creation (`create_chat_session`) and the
message-exchange (`send_message`) / websocket (`websocket_chat`) handlers.

Python strings are modelled as `List Char`.  Character classes (`\d`, `\s`,
`\w`, `str.strip`, `str.lower`, `str.splitlines`) are modelled over their
ASCII behaviour, which is what every string occurring in the repository uses;
Python's extra Unicode whitespace/case rules are outside the model.

External collaborators (the FAISS retriever, the Gemini completion call, OCR,
`process_pdf_to_faiss`, the filesystem) are abstracted as data carried by the
state: the retriever's result list and whether it raises, the completer's
returned text, and per-file processing outcomes for the ingestion pipeline.
The handlers are modelled as pure functions that also count how many retrieval
and completion calls they perform, which is what the gating claims are about.
-/

namespace DietBot

/-! ## Character classes (ASCII fragment of Python's `\d`, `\s`, `\w`) -/

/-- Python `\s` / `str.strip()` whitespace, ASCII fragment:
space, tab, newline, carriage return, vertical tab, form feed. -/
def isSpacePy (c : Char) : Bool :=
  c = ' ' || c = '\t' || c = '\n' || c = '\r' || c = '\x0b' || c = '\x0c'

/-- Python `\d`, ASCII fragment. -/
def isDigitPy (c : Char) : Bool :=
  '0' ≤ c && c ≤ '9'

/-- Python `\w` (word character), ASCII fragment: letters, digits, underscore. -/
def isWordPy (c : Char) : Bool :=
  ('a' ≤ c && c ≤ 'z') || ('A' ≤ c && c ≤ 'Z') || isDigitPy c || c = '_'

/-- `str.splitlines` boundaries, ASCII fragment: `\n`, `\r` (with `\r\n` as a
single boundary), `\x0b`, `\x0c`. -/
def isLineBreakPy (c : Char) : Bool :=
  c = '\n' || c = '\r' || c = '\x0b' || c = '\x0c'

/-! ## Basic string helpers -/

/-- `str.lower()`, ASCII fragment (`Char.toLower` lowercases `A`–`Z`). -/
def pyLower (s : List Char) : List Char :=
  s.map Char.toLower

/-- `str.strip()` with no argument: drop leading and trailing whitespace. -/
def pyStrip (s : List Char) : List Char :=
  ((s.dropWhile isSpacePy).reverse.dropWhile isSpacePy).reverse

/-- Python's `needle in haystack` substring test. -/
def containsSub (needle : List Char) : List Char → Bool
  | [] => needle.isPrefixOf []
  | c :: cs => needle.isPrefixOf (c :: cs) || containsSub needle cs

/-- Numeric value of a digit string, as Python `int()` on a `\d+` match. -/
def digitsVal (ds : List Char) : Nat :=
  ds.foldl (fun a c => 10 * a + (c.toNat - 48)) 0

/-! ## Intent classifier — `is_diet_related_question` (chatbot.py lines 24–35) -/

/-- The classifier's fixed keyword vocabulary (chatbot.py lines 26–33). -/
def dietKeywords : List String :=
  [ "diet", "food", "meal", "eat", "nutrition", "sugar", "glucose", "carb", "protein",
    "diabetes", "diabetic", "blood sugar", "insulin", "a1c", "glycemic",
    "blood pressure", "hypertension", "sodium", "salt", "dash diet",
    "breakfast", "lunch", "dinner", "snack", "portion", "weight", "bmi",
    "cholesterol", "fat", "calorie", "exercise", "lifestyle", "management",
    "plan", "diet plan", "days", "week", "month" ]

/-- `is_diet_related_question`: lowercase the message, then test whether any
keyword occurs as a substring. -/
def is_diet_related_question (message : String) : Bool :=
  let m := pyLower message.data
  dietKeywords.any (fun k => containsSub k.data m)

/-! ## Duration parser — `parse_days_from_text` (chatbot.py lines 323–345)

Each regex of the source is modelled by a scanner with Python `re.search`
semantics: try a match at every position left to right, first success wins.

For `(\d+)\s*day(s)?` (and the `week` variant) a match at a position is:
a maximal nonempty digit run, then a maximal whitespace run, then the literal
unit.  Backtracking cannot produce any other shape because shortening the
greedy `\d+` leaves a digit where the unit must start, and shortening `\s*`
leaves a whitespace character there; the optional `(s)?` does not affect
whether the mandatory part matches.  -/

/-- Match `(\d+)\s*<unit>` at the head of `l`, returning the captured number. -/
def matchNumUnit (unit : List Char) (l : List Char) : Option Nat :=
  if l.takeWhile isDigitPy = [] then none
  else if unit.isPrefixOf ((l.dropWhile isDigitPy).dropWhile isSpacePy)
  then some (digitsVal (l.takeWhile isDigitPy))
  else none

/-- `re.search` for `(\d+)\s*<unit>`: leftmost match wins. -/
def searchNumUnit (unit : List Char) : List Char → Option Nat
  | [] => none
  | c :: cs =>
    match matchNumUnit unit (c :: cs) with
    | some n => some n
    | none => searchNumUnit unit cs

/-- Does the word-boundary regex `\b1\s*month\b` match at the head of `l`,
given whether the character before `l` is a word character? -/
def match1Month (prevWord : Bool) (l : List Char) : Bool :=
  match l with
  | [] => false
  | c :: cs =>
    if c = '1' then
      if prevWord then false
      else if ("month".data).isPrefixOf (cs.dropWhile isSpacePy) then
        match (cs.dropWhile isSpacePy).drop 5 with
        | [] => true
        | d :: _ => !isWordPy d
      else false
    else false

/-- `re.search(r"\b1\s*month\b", l)`, scanning with the previous character's
word-ness to decide the leading `\b`. -/
def search1Month (prevWord : Bool) : List Char → Bool
  | [] => false
  | c :: cs => match1Month prevWord (c :: cs) || search1Month (isWordPy c) cs

/-- Does `\b30\s*day(s)?\b` match at the head of `l`?  The greedy `(s)?` takes
an `s` when the boundary after it holds; without the `s`, a following `s`
would itself violate the trailing `\b`. -/
def match30Day (prevWord : Bool) (l : List Char) : Bool :=
  match l with
  | [] => false
  | c :: cs =>
    if c = '3' ∧ cs.head? = some '0' then
      if prevWord then false
      else if ("day".data).isPrefixOf (cs.tail.dropWhile isSpacePy) then
        match (cs.tail.dropWhile isSpacePy).drop 3 with
        | [] => true
        | d :: after =>
          if d = 's' then
            match after with
            | [] => true
            | d2 :: _ => !isWordPy d2
          else !isWordPy d
      else false
    else false

/-- `re.search(r"\b30\s*day(s)?\b", l)`. -/
def search30Day (prevWord : Bool) : List Char → Bool
  | [] => false
  | c :: cs => match30Day prevWord (c :: cs) || search30Day (isWordPy c) cs

/-- `parse_days_from_text`: lowercase, then try, in order,
`(\d+)\s*day(s)?` (→ N), `(\d+)\s*week(s)?` (→ N×7), `\b1\s*month\b` (→ 30),
`\b30\s*day(s)?\b` (→ 30); otherwise `None`.  The `int()` conversions of the
source cannot fail on a `\d+` match, so the `try/except` wrappers are inert. -/
def parse_days_from_text (message : String) : Option Nat :=
  let msg := pyLower message.data
  match searchNumUnit "day".data msg with
  | some n => some n
  | none =>
    match searchNumUnit "week".data msg with
    | some n => some (n * 7)
    | none =>
      if search1Month false msg then some 30
      else if search30Day false msg then some 30
      else none

/-! ## Canned responses (chatbot.py lines 303–353) -/

/-- `format_general_response`: the canned redirect for out-of-scope questions. -/
def format_general_response : String :=
  "Sorry, I can only help with diet planning and nutrition for diabetes and blood pressure. Ask about diet, meals, or generate a plan (7, 10, 14, 21, or 30 days)."

/-- `unsupported_duration_response`: guidance naming the supported set. -/
def unsupported_duration_response : String :=
  "I can generate diet plans for these durations: 7 days (1 week), 10 days, 14 days, 21 days, or 30 days (1 month). Please choose one of these options."

/-- The handler's `supported_days = {7, 10, 14, 21, 30}`. -/
def supported_days : List Nat := [7, 10, 14, 21, 30]

/-! ## Response normalization — `format_response` (chatbot.py lines 255–301)

The function applies, in order:
1. `text = raw_text.strip()` (after returning blank input unchanged);
2. `re.sub(r'\*\*\*([^*]+)\*\*\*', r'**\1**', text)`;
3. `re.sub(r'#{4,}', '###', text)`;
4. `re.sub(r'\n\s*\n\s*\n+', '\n\n', text)`;
5. per line of `text.splitlines()`: strip, rewrite a leading `[•*·]\s+` to `"- "`
   (lines already starting `- ` or `N. ` are kept as is — those branches of the
   source are identity), collect blank lines as `''`;
6. join with `'\n'` and apply the blank-line `re.sub` of step 4 once more.

Each `re.sub` is modelled as the scan it performs: at every position, attempt a
match; on success emit the replacement and continue after the match, otherwise
copy one character.  For these three patterns greedy matching needs no
backtracking (shrinking a greedy `[^*]+`/`\s*`/`#{4,}` run always leaves a
character of the same class where the next literal must sit), so a match is:

* `\*\*\*([^*]+)\*\*\*` — three stars, the maximal nonempty star-free run,
  three stars;
* `#{4,}` — the maximal run of `#`, if its length is at least 4;
* `\n\s*\n\s*\n+` — starting at a newline, the maximal whitespace run, if it
  contains at least three newlines; the match extends to that run's last
  newline (trailing non-newline whitespace is outside the match).
-/

/-- One match attempt for `\*\*\*([^*]+)\*\*\*` at the head of `l`; on success
returns the captured group and the remainder after the match. -/
def tripleMatchAt : List Char → Option (List Char × List Char)
  | '*' :: '*' :: '*' :: rest =>
    if rest.takeWhile (fun c => c ≠ '*') = [] then none
    else
      match rest.dropWhile (fun c => c ≠ '*') with
      | '*' :: '*' :: '*' :: after => some (rest.takeWhile (fun c => c ≠ '*'), after)
      | _ => none
  | _ => none

/-- `re.sub(r'\*\*\*([^*]+)\*\*\*', r'**\1**', ·)`. -/
def subTripleGo (l : List Char) : List Char :=
  match l with
  | [] => []
  | c :: cs =>
    match h : tripleMatchAt (c :: cs) with
    | some (w, after) => '*' :: '*' :: (w ++ '*' :: '*' :: subTripleGo after)
    | none => c :: subTripleGo cs
termination_by l.length
decreasing_by
  · unfold tripleMatchAt at h
    split at h
    · rename_i rest heq
      split at h
      · exact absurd h (by simp)
      · split at h
        · rename_i hr
          injection h with h1
          injection h1 with hw ha
          subst ha
          have hsplit := List.takeWhile_append_dropWhile (fun c => decide (c ≠ '*')) rest
          have hlen : rest.length = (rest.takeWhile (fun c => decide (c ≠ '*'))).length +
              (rest.dropWhile (fun c => decide (c ≠ '*'))).length := by
            rw [← List.length_append, hsplit]
          rw [hr] at hlen
          have hcs : (c :: cs).length = 3 + rest.length := by rw [heq]; simp; omega
          simp only [List.length_cons] at hlen hcs ⊢
          omega
        · exact absurd h (by simp)
    · exact absurd h (by simp)
  · simp [Nat.lt_succ_self]

/-- `re.sub(r'#{4,}', '###', ·)`: replace every maximal run of at least four
`#` by exactly three. -/
def subHashGo (l : List Char) : List Char :=
  match l with
  | [] => []
  | c :: cs =>
    if c = '#' then
      (if 4 ≤ (c :: cs.takeWhile (fun d => d = '#')).length
        then ['#', '#', '#'] else c :: cs.takeWhile (fun d => d = '#')) ++
      subHashGo (cs.dropWhile (fun d => d = '#'))
    else c :: subHashGo cs
termination_by l.length
decreasing_by
  · have := (List.dropWhile_sublist (l := cs) (p := fun d => d = '#')).length_le
    simp only [List.length_cons]
    omega
  · simp [Nat.lt_succ_self]

/-- Newlines in a character list. -/
def countNL (l : List Char) : Nat := l.count '\n'

/-- The part of `l` strictly after its last newline (all of `l` if none). -/
def afterLastNL (l : List Char) : List Char :=
  (l.reverse.takeWhile (fun c => c ≠ '\n')).reverse

/-- `re.sub(r'\n\s*\n\s*\n+', '\n\n', ·)`: a match starts at a newline whose
maximal whitespace run holds at least three newlines, covers that run up to
its last newline, and is replaced by two newlines. -/
def collapseGo (l : List Char) : List Char :=
  match l with
  | [] => []
  | c :: cs =>
    if c = '\n' then
      (if 3 ≤ countNL ((c :: cs).takeWhile isSpacePy)
        then '\n' :: '\n' :: afterLastNL ((c :: cs).takeWhile isSpacePy)
        else (c :: cs).takeWhile isSpacePy) ++
      collapseGo ((c :: cs).dropWhile isSpacePy)
    else c :: collapseGo cs
termination_by l.length
decreasing_by
  · rename_i hc
    have h1 : (c :: cs).dropWhile isSpacePy = cs.dropWhile isSpacePy := by
      rw [List.dropWhile_cons]
      simp [hc, isSpacePy]
    have := (List.dropWhile_sublist (l := cs) (p := isSpacePy)).length_le
    rw [h1]
    simp only [List.length_cons]
    omega
  · simp [Nat.lt_succ_self]

/-- `str.splitlines()` worker: `acc` is the current line, reversed; `\r\n`
counts as a single boundary. -/
def splitGo (acc : List Char) (l : List Char) : List (List Char) :=
  match l with
  | [] => if acc = [] then [] else [acc.reverse]
  | c :: cs =>
    if c = '\r' then
      if cs.head? = some '\n' then acc.reverse :: splitGo [] cs.tail
      else acc.reverse :: splitGo [] cs
    else if isLineBreakPy c then acc.reverse :: splitGo [] cs
    else splitGo (c :: acc) cs
termination_by l.length
decreasing_by
  all_goals simp only [List.length_cons]
  · have : cs.tail.length ≤ cs.length := by cases cs <;> simp
    omega
  · omega
  · omega
  · omega

/-- `str.splitlines()` (ASCII boundaries; a trailing boundary emits no empty
final line, matching Python). -/
def splitLinesPy (l : List Char) : List (List Char) :=
  splitGo [] l

/-- Leading-glyph test for `re.match(r'^[•*·]\s+', line)`. -/
def bulletHead : List Char → Bool
  | g :: d :: _ => (g = '•' || g = '*' || g = '·') && isSpacePy d
  | _ => false

/-- The per-line processing of `format_response` step 4: strip, then rewrite a
leading `[•*·]\s+` to `"- "`; blank lines become `''`; lines already starting
with `- ` or a numbered `N. ` (and all other lines) pass through. -/
def procLine (line : List Char) : List Char :=
  if (pyStrip line) = [] then []
  else if bulletHead (pyStrip line) then
    '-' :: ' ' :: ((pyStrip line).drop 1).dropWhile isSpacePy
  else pyStrip line

/-- `'\n'.join(lines)`. -/
def joinNL (lines : List (List Char)) : List Char :=
  List.intercalate ['\n'] lines

/-- `format_response(raw_text, is_diet_plan)`.  The `is_diet_plan` flag is
accepted and ignored, as in the source. -/
def format_response (raw_text : String) (is_diet_plan : Bool) : String :=
  if raw_text.data.all isSpacePy then raw_text
  else
    ⟨collapseGo (joinNL ((splitLinesPy
        (collapseGo (subHashGo (subTripleGo (pyStrip raw_text.data))))).map procLine))⟩

/-! ## Ingestion status and session registry (chatbot.py lines 72–80, 392–415)

`ingest_tasks[session_id]` is a dict with keys `status`, `detail` and — once
the pipeline's per-file loop has run — `percent`; `percent = none` models an
absent key. -/

/-- One `ingest_tasks` entry. -/
structure IngestTask where
  status : String
  detail : String
  percent : Option Nat
deriving Repr, DecidableEq, Inhabited

/-- The gate at chatbot.py line 428 (and 598, 835): a session is blocked when
`session_id in ingest_tasks and ingest_tasks[session_id]["status"] != "completed"`. -/
def ingestGateBlocks : Option IngestTask → Bool
  | none => false
  | some t => t.status ≠ "completed"

/-! ## External collaborators, abstracted

The FAISS retriever and the Gemini completion are out-of-scope collaborators;
the snapshot carries their observable behaviour for the one message being
modelled: whether the `faiss` directory holds an index, the (deterministic)
retrieval result list, whether retrieval raises, and the completer's text.
FAISS similarity scores are IEEE floats in the code; no claim depends on
their values, so they are carried opaquely as `Int`. -/

/-- One element of `KnowledgeBaseRetriever.retrieve(...)`. -/
structure RetrievedChunk where
  source : String
  chunk : String
  score : Int
deriving Repr, DecidableEq, Inhabited

/-- A `sources` entry of the response envelope (chatbot.py lines 534–541):
excerpt truncated to 200 characters with an ellipsis. -/
structure SourceRef where
  source : String
  excerpt : String
  score : Int
deriving Repr, DecidableEq, Inhabited

/-- Build one `sources` entry from a retrieved chunk. -/
def mkSourceRef (r : RetrievedChunk) : SourceRef :=
  { source := r.source
    excerpt := if 200 < r.chunk.data.length
      then String.mk (r.chunk.data.take 200) ++ "..." else r.chunk
    score := r.score }

/-- `retrieved_context` as assembled at chatbot.py line 449:
`"\n---\n".join(f"[Source: {r['source']}]\n{r['chunk']}" for r in results)`. -/
def contextOf (results : List RetrievedChunk) : String :=
  String.mk (List.intercalate ("\n---\n".data)
    (results.map (fun r => ("[Source: " ++ r.source ++ "]\n" ++ r.chunk).data)))

/-- Everything `send_message` / `websocket_chat` observes about one session
while handling one message. -/
structure SessionSnapshot where
  /-- `session_id in sessions` -/
  known : Bool
  /-- `ingest_tasks.get(session_id)` -/
  ingest : Option IngestTask
  /-- the `faiss` directory exists and holds at least one `.index` file -/
  hasIndexFiles : Bool
  /-- retriever construction / `retrieve` raises (caught with a warning) -/
  retrieveRaises : Bool
  /-- the retriever's (deterministic) result list for this message -/
  retrieveResults : List RetrievedChunk
  /-- `generate_diet_plan_with_gemini`'s returned text -/
  geminiResponse : String
deriving Repr, DecidableEq, Inhabited

/-- Observable outcome of one `POST /{session_id}/message` request, with the
number of retrieval and completion calls performed while handling it. -/
structure ChatOutcome where
  status : Nat
  detail : String
  response : Option String
  sources : List SourceRef
  retrievalCalls : Nat
  completionCalls : Nat
deriving Repr, DecidableEq, Inhabited

/-- A 500 produced by the blanket `except Exception` at chatbot.py line 563,
which catches even the handler's own `HTTPException`s and re-raises them as
`HTTPException(500, f"Error processing message: {e}")`. -/
def wrapped500 (excText : String) (r c : Nat) : ChatOutcome :=
  { status := 500
    detail := "Error processing message: " ++ excText
    response := none
    sources := []
    retrievalCalls := r
    completionCalls := c }

/-- `str(e)` for the `UnboundLocalError` raised at chatbot.py line 530 when
the out-of-domain path reads the never-assigned local `retrieved_context`
(CPython words it as: cannot access local variable ... where it is not
associated with a value). -/
def unboundLocalText : String :=
  "cannot access local variable retrieved_context where it is not associated with a value"

/-- `send_message` (chatbot.py lines 417–564).  The handler body runs inside
`try:`; every exception — including the 404/400 `HTTPException`s it raises
itself and the `UnboundLocalError` of the out-of-domain path — is converted
by the final `except Exception` into a 500. -/
def send_message (sess : SessionSnapshot) (message : String) : ChatOutcome :=
  -- line 421: unknown session → raise HTTPException(404), re-wrapped at 563
  if ¬sess.known then wrapped500 "404: Session not found" 0 0
  -- line 428: ingestion gate → raise HTTPException(400), re-wrapped at 563
  else if ingestGateBlocks sess.ingest then
    wrapped500 "400: File ingestion not complete" 0 0
  -- line 431: message_lower = message.lower(); line 434: classifier
  else if ¬is_diet_related_question (String.mk (pyLower message.data)) then
    -- lines 435–436 select the canned redirect with empty sources, but line
    -- 530 reads the local retrieved_context, unassigned on this path:
    -- UnboundLocalError, re-wrapped at 563.  No retrieval, no completion.
    wrapped500 unboundLocalText 0 0
  else
    -- line 439: duration parse on the lowered message
    let requested_days := parse_days_from_text (String.mk (pyLower message.data))
    -- lines 443–451: first retrieval, only when an index exists; a raise is
    -- caught with a warning and leaves retrieved_context = ""
    let retrieved_context : String :=
      if sess.hasIndexFiles && !sess.retrieveRaises then contextOf sess.retrieveResults else ""
    let firstRetrieval := if sess.hasIndexFiles then 1 else 0
    -- lines 462–523: plan / unsupported-duration / general Q&A branches
    let gen : String × Nat :=
      match requested_days with
      | some n =>
        if supported_days.contains n then (sess.geminiResponse, 1)
        else (unsupported_duration_response, 0)
      | none => (sess.geminiResponse, 1)
    -- line 526: normalization
    let response_text := format_response gen.1 false
    -- lines 528–543: second retrieval purely for citation metadata
    let secondRetrieval := if retrieved_context ≠ "" then 1 else 0
    let sources : List SourceRef :=
      if retrieved_context ≠ "" && !sess.retrieveRaises
      then sess.retrieveResults.map mkSourceRef else []
    { status := 200
      detail := ""
      response := some response_text
      sources := sources
      retrievalCalls := firstRetrieval + secondRetrieval
      completionCalls := gen.2 }

/-- Observable outcome of handling one frame of `websocket_chat`
(chatbot.py lines 566–758): which kind of reply the client sees, whether any
`token` frames were streamed, and the retrieval/completion call counts. -/
structure WsOutcome where
  kind : String
  response : Option String
  retrievalCalls : Nat
  completionCalls : Nat
  sentTokens : Bool
deriving Repr, DecidableEq, Inhabited

/-- The reserved exit phrases (chatbot.py line 589). -/
def exitPhrases : List String := ["exit", "quit", "bye", "goodbye"]

/-- One iteration of the `websocket_chat` receive loop for a `message` frame.
`priorCtx` is the value the function-scoped local `retrieved_context` still
holds from an earlier in-domain message on the same connection (`none` on a
fresh connection). -/
def websocket_handle (sess : SessionSnapshot) (priorCtx : Option String)
    (raw : String) : WsOutcome :=
  -- line 586: message = data.get("message", "").strip()
  let message : String := String.mk (pyStrip raw.data)
  -- lines 589–595: exit phrases close the socket before any other check
  if exitPhrases.contains (String.mk (pyLower message.data)) then
    { kind := "closed", response := none, retrievalCalls := 0
      completionCalls := 0, sentTokens := false }
  -- lines 597–603: ingestion gate → error frame, loop continues
  else if ingestGateBlocks sess.ingest then
    { kind := "gate_error"
      response := some "File ingestion not complete. Please wait."
      retrievalCalls := 0, completionCalls := 0, sentTokens := false }
  -- line 613: classifier (lowercases internally)
  else if ¬is_diet_related_question message then
    -- the canned redirect is normalized and streamed as token frames; the
    -- sources step at line 711 then reads retrieved_context, which on a fresh
    -- connection is unassigned: UnboundLocalError, caught at line 744 and
    -- answered with an error frame.  A stale value from an earlier in-domain
    -- message lets the final frame succeed (and re-runs retrieval if nonempty).
    match priorCtx with
    | none =>
      { kind := "tokens_then_error", response := none, retrievalCalls := 0
        completionCalls := 0, sentTokens := true }
    | some ctx =>
      { kind := "answered"
        response := some (format_response format_general_response false)
        retrievalCalls := if ctx ≠ "" then 1 else 0
        completionCalls := 0, sentTokens := true }
  else
    -- lines 616–626: retrieval; lines 638–692: plan / unsupported / general
    let retrieved_context : String :=
      if sess.hasIndexFiles && !sess.retrieveRaises then contextOf sess.retrieveResults else ""
    let firstRetrieval := if sess.hasIndexFiles then 1 else 0
    let gen : String × Nat :=
      match parse_days_from_text message with
      | some n =>
        if supported_days.contains n then (sess.geminiResponse, 1)
        else (unsupported_duration_response, 0)
      | none => (sess.geminiResponse, 1)
    let secondRetrieval := if retrieved_context ≠ "" then 1 else 0
    { kind := "answered"
      response := some (format_response gen.1 false)
      retrievalCalls := firstRetrieval + secondRetrieval
      completionCalls := gen.2
      sentTokens := true }

/-! ## Session creation — `create_chat_session` (chatbot.py lines 355–407) -/

/-- What `validate_file` sees of an `UploadFile`: MIME type and the optional
size attribute. -/
structure UploadMeta where
  filename : String
  contentType : String
  size : Option Nat
deriving Repr, DecidableEq, Inhabited

/-- chatbot.py line 41. -/
def ALLOWED_MIME_TYPES : List String :=
  ["application/pdf", "image/jpeg", "image/jpg", "image/png"]

/-- chatbot.py line 40. -/
def MAX_UPLOAD_SIZE_MB : Nat := 25

/-- `validate_file` (chatbot.py lines 93–99).  `file.size and file.size > ...`
is false when the size attribute is `None` or `0`, so only a present, nonzero,
over-limit size rejects. -/
def validate_file (f : UploadMeta) : Bool :=
  if !(ALLOWED_MIME_TYPES.contains f.contentType) then false
  else if (match f.size with
    | some s => decide (s ≠ 0) && decide (MAX_UPLOAD_SIZE_MB * 1024 * 1024 < s)
    | none => false) then false
  else true

/-- What session creation leaves behind that the claims observe: the initial
`ingest_tasks` entry, and whether a background ingestion task was scheduled. -/
structure CreateOutcome where
  ingest : IngestTask
  backgroundScheduled : Bool
deriving Repr, DecidableEq, Inhabited

/-- `create_chat_session` (chatbot.py lines 355–407): accepted files are the
ones passing `validate_file`; with at least one accepted file the entry is
`queued` (set in the handler, before the background task can run), otherwise
`completed` immediately. -/
def create_chat_session (files : List UploadMeta) : CreateOutcome :=
  let file_paths := files.filter validate_file
  if file_paths ≠ [] then
    { ingest := ⟨"queued", "Files queued for processing", none⟩
      backgroundScheduled := true }
  else
    { ingest := ⟨"completed", "No files to process", none⟩
      backgroundScheduled := false }

/-! ## Ingestion pipeline — `ingest_files_background` (chatbot.py lines 199–253)

The task is modelled as the trace of states it writes: each mutation of
`ingest_tasks[session_id]` and of the per-session on-disk artefacts (an
`.index`/chunks pair per successfully processed PDF, an `_ocr.json` per
successfully processed image).  Per-file processing and the final metadata
write are external calls; an `outcome` of `some e` means the call raises `e`.
There is no `try/except` inside the loop, so a raise goes straight to the
function-level handler, which overwrites the entry with
`{"status": "failed", "detail": f"Ingestion failed: {e}", "percent": 0}`.

The source computes the progress as `int((i / len(file_paths)) * 100)` in
IEEE doubles; `pctOf` below reproduces that arithmetic exactly: `i / n` is
correctly rounded to the nearest binary64 (ties to even), multiplied by the
exact double `100.0` and rounded again, then truncated toward zero — so e.g.
`pctOf 29 50 = 57`, where the exact floor would give `58`. -/

/-- One uploaded file as the pipeline sees it. -/
structure IngFile where
  path : String
  isPdf : Bool
  outcome : Option String
deriving Repr, DecidableEq, Inhabited

/-- A snapshot of the session's ingestion entry and on-disk artefacts. -/
structure IngSnapshot where
  task : IngestTask
  indexes : List String
  ocrJson : List String
deriving Repr, DecidableEq, Inhabited

/-- Fuel-based binary logarithm: `lg fuel n = ⌊log₂ n⌋` for `1 ≤ n ≤ fuel`
(structural recursion on the fuel, so it evaluates in the kernel). -/
def lg : Nat → Nat → Nat
  | 0, _ => 0
  | fuel + 1, n => if n < 2 then 0 else lg fuel (n / 2) + 1

/-- `⌊log₂ n⌋` for `n ≥ 1`. -/
def nlog2 (n : Nat) : Nat := lg n n

/-- `⌊log₂ (a/b)⌋` for positive naturals `a`, `b`, via integer arithmetic. -/
def flog2 (a b : Nat) : Int :=
  (nlog2 ((a * 2 ^ (nlog2 b + 1)) / b) : Int) - (nlog2 b + 1)

/-- Round `p/q` to the nearest integer, ties to even. -/
def rne (p q : Nat) : Nat :=
  if 2 * (p % q) < q then p / q
  else if q < 2 * (p % q) then p / q + 1
  else if p / q % 2 = 0 then p / q else p / q + 1

/-- The IEEE-754 binary64 scale of `a/b`: the value is rounded to a multiple
of `2 ^ (e - 52)` with `e = max ⌊log₂ (a/b)⌋ (-1022)`, i.e. to a dyadic with
denominator `2 ^ fscale a b` (subnormals clamp the exponent at `-1022`). -/
def fscale (a b : Nat) : Int := 52 - max (flog2 a b) (-1022)

/-- Round the rational `a/b` to the nearest binary64 value (ties to even),
as a dyadic pair `(m, s)` of value `m / 2 ^ s`; `a = 0` or `b = 0` gives 0. -/
def roundF (a b : Nat) : Nat × Int :=
  if a = 0 ∨ b = 0 then (0, 0)
  else if 0 ≤ fscale a b then (rne (a * 2 ^ (fscale a b).toNat) b, fscale a b)
  else (rne a (b * 2 ^ (-(fscale a b)).toNat), fscale a b)

/-- The dyadic `(m, s)` as the rational `m / 2 ^ s`. -/
def dval (p : Nat × Int) : ℚ := (p.1 : ℚ) * 2 ^ (-p.2)

/-- `int(x)` — truncation toward zero — of the nonnegative dyadic `m / 2 ^ s`. -/
def dtrunc (p : Nat × Int) : Nat :=
  if 0 ≤ p.2 then p.1 / 2 ^ p.2.toNat else p.1 * 2 ^ (-p.2).toNat

/-- Multiplication of a dyadic by the exact double `100.0`, rounded back to
binary64. -/
def dmul100 (p : Nat × Int) : Nat × Int :=
  if 0 ≤ p.2 then roundF (100 * p.1) (2 ^ p.2.toNat)
  else roundF (100 * p.1 * 2 ^ (-p.2).toNat) 1

/-- `int((i / n) * 100)` computed exactly as the source's IEEE doubles do:
`i / n` is correctly rounded to the nearest binary64 (ties to even), then
multiplied by `100.0` and rounded again, then truncated toward zero. -/
def pctOf (i n : Nat) : Nat := dtrunc (dmul100 (roundF i n))

/-- Line 210: the detail write before processing file `i` (zero-based);
the `percent` key keeps whatever it was. -/
def ingestStateA (n i : Nat) (cur : IngSnapshot) : IngSnapshot :=
  { cur with task := { cur.task with detail := s!"Processing file {i+1}/{n}" } }

/-- Line 211: the percent write before processing file `i`. -/
def ingestStateB (n i : Nat) (cur : IngSnapshot) : IngSnapshot :=
  { ingestStateA n i cur with
    task := { (ingestStateA n i cur).task with percent := some (pctOf i n) } }

/-- Lines 216–227: the artefact written by successfully processing file `f`. -/
def ingestStateC (n i : Nat) (cur : IngSnapshot) (f : IngFile) : IngSnapshot :=
  if f.isPdf then
    { ingestStateB n i cur with indexes := (ingestStateB n i cur).indexes ++ [f.path] }
  else
    { ingestStateB n i cur with ocrJson := (ingestStateB n i cur).ocrJson ++ [f.path] }

/-- Lines 229–233: the completion write. -/
def ingestDoneState (n : Nat) (cur : IngSnapshot) : IngSnapshot :=
  { cur with task := ⟨"completed", s!"Successfully processed {n} files", some 100⟩ }

/-- Lines 248–253: the `except` handler's write — note `percent: 0`. -/
def ingestFailState (cur : IngSnapshot) (e : String) : IngSnapshot :=
  { cur with task := ⟨"failed", "Ingestion failed: " ++ e, some 0⟩ }

/-- The per-file loop (chatbot.py lines 209–227), the completion write
(lines 229–233) and the metadata write (lines 236–246), as a state trace.
A raise anywhere jumps to the `except` handler: remaining files are not
visited. -/
def ingestGo (n : Nat) (metaSave : Option String) (i : Nat) (cur : IngSnapshot) :
    List IngFile → List IngSnapshot
  | [] =>
    ingestDoneState n cur ::
      (match metaSave with
       | some e => [ingestFailState (ingestDoneState n cur) e]
       | none => [])
  | f :: fs =>
    ingestStateA n i cur :: ingestStateB n i cur ::
      (match f.outcome with
       | some e => [ingestFailState (ingestStateB n i cur) e]
       | none =>
         ingestStateC n i cur f :: ingestGo n metaSave (i + 1) (ingestStateC n i cur f) fs)

/-- `ingest_files_background`: the initial `in_progress` write (line 202, no
`percent` key yet) followed by the loop. -/
def ingest_files_background (files : List IngFile) (metaSave : Option String) :
    List IngSnapshot :=
  let s0 : IngSnapshot := ⟨⟨"in_progress", "Starting ingestion...", none⟩, [], []⟩
  s0 :: ingestGo files.length metaSave 0 s0 files

/-- Adjacent-pair monotonicity of the `percent` field along a trace (pairs
with an absent percent are unconstrained). -/
def percentMonoB : List IngSnapshot → Bool
  | a :: b :: t =>
    (match a.task.percent, b.task.percent with
     | some p, some q => decide (p ≤ q)
     | _, _ => true) && percentMonoB (b :: t)
  | _ => true

/-- The index artefacts a list of files should produce: one per PDF. -/
def pdfPaths (files : List IngFile) : List String :=
  (files.filter (fun f => f.isPdf)).map (fun f => f.path)

/-! ## Concrete fixtures used by witnesses and counterexamples -/

/-- A known session whose ingestion completed, with no index on disk. -/
def demoCompletedSession : SessionSnapshot :=
  { known := true
    ingest := some ⟨"completed", "Successfully processed 1 files", some 100⟩
    hasIndexFiles := false
    retrieveRaises := false
    retrieveResults := []
    geminiResponse := "Eat vegetables." }

/-- A known session whose files are still queued. -/
def demoQueuedSession : SessionSnapshot :=
  { known := true
    ingest := some ⟨"queued", "Files queued for processing", none⟩
    hasIndexFiles := false
    retrieveRaises := false
    retrieveResults := []
    geminiResponse := "Eat vegetables." }

/-- An unknown session identifier's snapshot. -/
def demoUnknownSession : SessionSnapshot :=
  { known := false
    ingest := none
    hasIndexFiles := false
    retrieveRaises := false
    retrieveResults := []
    geminiResponse := "" }

/-- Two files where the second one's processing raises. -/
def demoFilesSecondFails : List IngFile :=
  [⟨"a.pdf", true, none⟩, ⟨"b.pdf", true, some "boom"⟩]

/-- Two files where the first one's processing raises. -/
def demoFilesFirstFails : List IngFile :=
  [⟨"a.pdf", true, some "boom"⟩, ⟨"b.pdf", true, none⟩]

/-! ## Specification-side predicates

Declarative (decomposition-based) statements of what the regex patterns of
the duration parser accept, and of the normalization guarantees, written from
the spec's wording; the theorems below relate the executable translations of
the source to these. -/

/-- Every character is an ASCII digit. -/
def AllDigits (l : List Char) : Prop := ∀ c ∈ l, isDigitPy c = true

/-- Every character is whitespace. -/
def AllSpace (l : List Char) : Prop := ∀ c ∈ l, isSpacePy c = true

/-- The text contains a number followed (after optional whitespace) by the
literal `unit` — the spec's "a number followed by 'day'/'days'" patterns. -/
def HasNumUnit (unit s : List Char) : Prop :=
  ∃ u ds sp v, s = u ++ ds ++ (sp ++ (unit ++ v)) ∧ ds ≠ [] ∧ AllDigits ds ∧ AllSpace sp

/-- As `HasNumUnit`, with the number's value: some such occurrence reads `n`. -/
def NumUnitYields (unit s : List Char) (n : Nat) : Prop :=
  ∃ u ds sp v, s = u ++ ds ++ (sp ++ (unit ++ v)) ∧ ds ≠ [] ∧ AllDigits ds ∧ AllSpace sp ∧
    digitsVal ds = n

/-- Nothing, or a non-word character, stands at the start of `v` — a `\b`
after a word character holds there. -/
def NonWordStart (v : List Char) : Prop :=
  ∀ c, v.head? = some c → isWordPy c = false

/-- The leading `\b` of a pattern holds after `u`: at the string start that is
recorded by the scanner's `prev` flag, otherwise `u` must end in a non-word
character. -/
def WordBoundaryAfter (prev : Bool) (u : List Char) : Prop :=
  match u.getLast? with
  | none => prev = false
  | some c => isWordPy c = false

/-- The text contains the word-bounded literal `1 month` (optional whitespace
between `1` and `month`), starting after boundary state `prev`. -/
def OneMonthFrom (prev : Bool) (s : List Char) : Prop :=
  ∃ u sp v, s = u ++ '1' :: (sp ++ ("month".data ++ v)) ∧ AllSpace sp ∧
    WordBoundaryAfter prev u ∧ NonWordStart v

/-- The text contains the word-bounded literal `1 month` — the spec's
pattern (c). -/
def HasOneMonth (s : List Char) : Prop := OneMonthFrom false s

/-- The text contains a run of four or more `#`. -/
def HasQuadHash (l : List Char) : Prop :=
  ∃ u v, l = u ++ '#' :: '#' :: '#' :: '#' :: v

/-- No asterisk anywhere in `w`. -/
def StarFree (w : List Char) : Prop := ∀ c ∈ w, c ≠ '*'

/-- The text contains triple-asterisk emphasis: `***w***` with `w` nonempty
and asterisk-free. -/
def HasTripleEmph (l : List Char) : Prop :=
  ∃ u w v, l = u ++ '*' :: '*' :: '*' :: (w ++ '*' :: '*' :: '*' :: v) ∧
    w ≠ [] ∧ StarFree w

/-- The bullet glyphs rewritten by `format_response`. -/
def isGlyph (c : Char) : Bool := c = '•' || c = '*' || c = '·'

/-- Some line of the text (its start when `atStart`, or any position after a
newline) begins with a bullet glyph followed by whitespace — i.e. the line,
read up to the next newline, would still match `^[•*·]\s+` (the whitespace
character is the line's own, hence not the `\n` separator itself). -/
def HasBadBullet (atStart : Bool) (l : List Char) : Prop :=
  ∃ u g d v, l = u ++ g :: d :: v ∧ isGlyph g = true ∧ isSpacePy d = true ∧ d ≠ '\n' ∧
    ((u = [] ∧ atStart = true) ∨ ∃ u2, u = u2 ++ ['\n'])

/-- The text contains three newlines separated only by whitespace — i.e. two
consecutive blank lines. -/
def HasTripleNewline (l : List Char) : Prop :=
  ∃ u a b v, l = u ++ '\n' :: (a ++ '\n' :: (b ++ '\n' :: v)) ∧ AllSpace a ∧ AllSpace b

/- ======================================================================= -/
/- Theorems                                                                -/
/- ======================================================================= -/

/-! ## Unfolding equations for the well-founded recursions

The recursive `re.sub` scanners are defined by well-founded recursion on the
input length, which the kernel does not reduce; these equations let `simp`
both evaluate them on concrete inputs and drive the inductions below. -/

theorem subTripleGo_nil : subTripleGo [] = [] := by
  rw [subTripleGo]

theorem subTripleGo_cons (c : Char) (cs : List Char) :
    subTripleGo (c :: cs) =
      match tripleMatchAt (c :: cs) with
      | some (w, after) => '*' :: '*' :: (w ++ '*' :: '*' :: subTripleGo after)
      | none => c :: subTripleGo cs := by
  rw [subTripleGo]
  rcases h : tripleMatchAt (c :: cs) with _ | ⟨w, after⟩ <;> simp [h]

theorem subTripleGo_cons_some {c : Char} {cs w after : List Char}
    (h : tripleMatchAt (c :: cs) = some (w, after)) :
    subTripleGo (c :: cs) = '*' :: '*' :: (w ++ '*' :: '*' :: subTripleGo after) := by
  rw [subTripleGo_cons, h]

theorem subTripleGo_cons_none {c : Char} {cs : List Char}
    (h : tripleMatchAt (c :: cs) = none) :
    subTripleGo (c :: cs) = c :: subTripleGo cs := by
  rw [subTripleGo_cons, h]

theorem subHashGo_nil : subHashGo [] = [] := by
  rw [subHashGo]

theorem subHashGo_cons (c : Char) (cs : List Char) :
    subHashGo (c :: cs) =
      if c = '#' then
        (if 4 ≤ (c :: cs.takeWhile (fun d => d = '#')).length
          then ['#', '#', '#'] else c :: cs.takeWhile (fun d => d = '#')) ++
        subHashGo (cs.dropWhile (fun d => d = '#'))
      else c :: subHashGo cs := by
  rw [subHashGo]

theorem collapseGo_nil : collapseGo [] = [] := by
  rw [collapseGo]

theorem collapseGo_cons (c : Char) (cs : List Char) :
    collapseGo (c :: cs) =
      if c = '\n' then
        (if 3 ≤ countNL ((c :: cs).takeWhile isSpacePy)
          then '\n' :: '\n' :: afterLastNL ((c :: cs).takeWhile isSpacePy)
          else (c :: cs).takeWhile isSpacePy) ++
        collapseGo ((c :: cs).dropWhile isSpacePy)
      else c :: collapseGo cs := by
  rw [collapseGo]

theorem splitGo_nil (acc : List Char) :
    splitGo acc [] = if acc = [] then [] else [acc.reverse] := by
  rw [splitGo]

theorem splitGo_cons (acc : List Char) (c : Char) (cs : List Char) :
    splitGo acc (c :: cs) =
      if c = '\r' then
        if cs.head? = some '\n' then acc.reverse :: splitGo [] cs.tail
        else acc.reverse :: splitGo [] cs
      else if isLineBreakPy c then acc.reverse :: splitGo [] cs
      else splitGo (c :: acc) cs := by
  rw [splitGo]

/-! ## C10 — normalization is the identity on blank input -/

/-- C10: for every input string that is empty or consists only of whitespace,
`format_response` returns the exact input string unchanged. -/
theorem C10_blank_input_identity (s : String) (b : Bool)
    (h : s.data.all isSpacePy = true) : format_response s b = s := by
  unfold format_response
  simp [h]

/-- C10 witness at a concrete whitespace-only input. -/
theorem C10_blank_input_identity_witness :
    (" \n\t ".data.all isSpacePy = true) ∧ format_response " \n\t " false = " \n\t " :=
  ⟨by decide, C10_blank_input_identity " \n\t " false (by decide)⟩

/-! ## C1 — the out-of-domain short-circuit crashes instead of answering

The claim (and the spec) say an out-of-domain message on a completed session
returns the canned redirect with empty sources as a successful response.  The
handler indeed performs no retrieval and no completion call, and lines 435–436
select exactly that response — but line 530 then reads the function-local
`retrieved_context`, which is only ever assigned on the in-domain branch, so
the request dies with an `UnboundLocalError` that the blanket handler turns
into a 500.  The code, not the claim, is wrong: the dead stores at lines
435–436 are unambiguous about the intended behaviour. -/

/-- C1 (code bug): on a known, ingestion-completed session, the out-of-domain
message `"hello"` triggers no retrieval and no completion call, but the
exchange returns a 500 from the unbound `retrieved_context` instead of the
canned redirect. -/
theorem C1_out_of_domain_crashes_with_500 :
    is_diet_related_question "hello" = false ∧
    (send_message demoCompletedSession "hello").retrievalCalls = 0 ∧
    (send_message demoCompletedSession "hello").completionCalls = 0 ∧
    (send_message demoCompletedSession "hello").status = 500 ∧
    (send_message demoCompletedSession "hello").response = none ∧
    (send_message demoCompletedSession "hello").detail =
      "Error processing message: " ++ unboundLocalText := by
  refine ⟨by decide, ?_, ?_, ?_, ?_, ?_⟩ <;> decide

/-! ## C3 — client errors are re-wrapped as 500s

`HTTPException` subclasses `Exception`, so the 404 raised at line 422 and the
400 raised at line 429 are caught by the blanket `except Exception` at line
563 and re-raised as `HTTPException(500, f"Error processing message: {e}")`.
The repository's own test (`tests/test_chatbot.py::test_invalid_session_id`)
asserts a 404 for the message endpoint with an unknown session, and
`app_simple.py` shows the intended `except HTTPException: raise` pattern, so
the claim matches the intent and the code is the slip. -/

/-- C3 (code bug): both client-error conditions of the message exchange
surface as 500s, not as the intended 404/400. -/
theorem C3_client_errors_surface_as_500 :
    (send_message demoUnknownSession "any message").status = 500 ∧
    (send_message demoUnknownSession "any message").detail =
      "Error processing message: 404: Session not found" ∧
    (send_message demoQueuedSession "any message").status = 500 ∧
    (send_message demoQueuedSession "any message").detail =
      "Error processing message: 400: File ingestion not complete" := by
  refine ⟨?_, ?_, ?_, ?_⟩ <;> decide

/-! ## C5 — unsupported durations

`"45 days"` parses to 45, which the handler rejects with the canned guidance
and no completion call.  But `"3 months"` parses to `None` — no pattern of
`parse_days_from_text` mentions a bare month count other than the literal
`1 month` — so the claim's premise that it "returns a value" is false: such a
message takes the general Q&A path and does invoke the completer. -/

set_option maxRecDepth 4000 in
/-- Normalization leaves the canned unsupported-duration guidance unchanged
(it is a single clean line). -/
theorem format_response_unsupported_fixed :
    format_response unsupported_duration_response false = unsupported_duration_response := by
  simp [format_response, unsupported_duration_response, isSpacePy, pyStrip,
    subTripleGo_cons, subTripleGo_nil, tripleMatchAt,
    subHashGo_cons, subHashGo_nil, collapseGo_cons, collapseGo_nil,
    splitLinesPy, splitGo_cons, splitGo_nil, isLineBreakPy,
    procLine, bulletHead, joinNL, countNL, afterLastNL, List.intercalate,
    List.intersperse]

/-- C5 counterexample: the duration parser returns `None` on `"3 months"`,
contradicting the claim that it returns a value there. -/
theorem C5_counterexample_three_months_is_none :
    parse_days_from_text "3 months" = none := by decide

/-- C5 as amended: the parser returns 45 for `"45 days"` but `None` for
`"3 months"` (general Q&A path); whenever an in-domain message on an answered
session parses to a day count outside `{7, 10, 14, 21, 30}`, the handler
responds 200 with exactly the canned rejection naming the supported set and
performs no completion call — it never clamps or rounds. -/
theorem C5_amended_unsupported_duration_rejected :
    parse_days_from_text "45 days" = some 45 ∧
    parse_days_from_text "3 months" = none ∧
    (∀ (sess : SessionSnapshot) (msg : String) (n : Nat),
      sess.known = true →
      ingestGateBlocks sess.ingest = false →
      is_diet_related_question (String.mk (pyLower msg.data)) = true →
      parse_days_from_text (String.mk (pyLower msg.data)) = some n →
      supported_days.contains n = false →
      (send_message sess msg).completionCalls = 0 ∧
      (send_message sess msg).response = some unsupported_duration_response ∧
      (send_message sess msg).status = 200) := by
  refine ⟨by decide, by decide, ?_⟩
  intro sess msg n h1 h2 h3 h4 h5
  simp only [send_message, h1, h2, h3, h4, h5, format_response_unsupported_fixed,
    Bool.not_true, Bool.false_eq_true, if_false, if_true, ite_false, ite_true]
  simp [h1, h2, h3, h4, h5, format_response_unsupported_fixed]

/-- C5 witness: a concrete `"45 days"` message on a completed session. -/
theorem C5_amended_witness :
    (send_message demoCompletedSession "45 days").completionCalls = 0 ∧
    (send_message demoCompletedSession "45 days").response =
      some unsupported_duration_response ∧
    (send_message demoCompletedSession "45 days").status = 200 :=
  C5_amended_unsupported_duration_rejected.2.2 demoCompletedSession "45 days" 45
    (by decide) (by decide) (by decide) (by decide) (by decide)

/-! ## C2 — the ingestion gate

Both message entry points check the gate before retrieval, parsing or any
completion call; a gated request performs zero external calls, and a message
is only ever answered (REST 200 / websocket frames streamed) when the gate
passes.  The REST rejection does reach the client (as the 500 of C3, because
of the blanket handler), but it is a rejection: no retrieval, no completion. -/

/-- C2: on either endpoint, a message to a session whose ingestion entry is
not `completed` performs no retrieval and no completion call and is not
answered; conversely an answered message implies the entry was absent or
`completed`. -/
theorem C2_ingestion_gate :
    (∀ (sess : SessionSnapshot) (msg : String) (t : IngestTask),
        sess.ingest = some t → t.status ≠ "completed" →
        (send_message sess msg).retrievalCalls = 0 ∧
        (send_message sess msg).completionCalls = 0 ∧
        (send_message sess msg).status ≠ 200) ∧
    (∀ (sess : SessionSnapshot) (pc : Option String) (msg : String) (t : IngestTask),
        sess.ingest = some t → t.status ≠ "completed" →
        (websocket_handle sess pc msg).retrievalCalls = 0 ∧
        (websocket_handle sess pc msg).completionCalls = 0 ∧
        (websocket_handle sess pc msg).sentTokens = false) ∧
    (∀ (sess : SessionSnapshot) (msg : String),
        (send_message sess msg).status = 200 →
        sess.ingest = none ∨ ∃ t, sess.ingest = some t ∧ t.status = "completed") ∧
    (∀ (sess : SessionSnapshot) (pc : Option String) (msg : String),
        (websocket_handle sess pc msg).sentTokens = true →
        sess.ingest = none ∨ ∃ t, sess.ingest = some t ∧ t.status = "completed") := by
  have gate_true : ∀ (t : IngestTask), t.status ≠ "completed" →
      ∀ (o : Option IngestTask), o = some t → ingestGateBlocks o = true := by
    intro t ht o ho
    subst ho
    simp [ingestGateBlocks, ht]
  refine ⟨?_, ?_, ?_, ?_⟩
  · intro sess msg t h1 h2
    have hg := gate_true t h2 sess.ingest h1
    by_cases hk : sess.known <;>
      simp [send_message, hk, hg, wrapped500]
  · intro sess pc msg t h1 h2
    have hg := gate_true t h2 sess.ingest h1
    simp only [websocket_handle, hg, if_true]
    split <;> simp
  · intro sess msg h200
    rcases hi : sess.ingest with _ | t
    · exact Or.inl rfl
    · refine Or.inr ⟨t, rfl, ?_⟩
      by_contra hne
      have hg := gate_true t hne sess.ingest hi
      by_cases hk : sess.known <;>
        simp [send_message, hk, hg, wrapped500] at h200
  · intro sess pc msg htok
    rcases hi : sess.ingest with _ | t
    · exact Or.inl rfl
    · refine Or.inr ⟨t, rfl, ?_⟩
      by_contra hne
      have hg := gate_true t hne sess.ingest hi
      simp only [websocket_handle, hg, if_true] at htok
      split at htok <;> simp at htok

/-- C2 witness: a queued session rejects a concrete message on both
endpoints with zero retrieval/completion calls. -/
theorem C2_ingestion_gate_witness :
    ((send_message demoQueuedSession "what should I eat?").retrievalCalls = 0 ∧
     (send_message demoQueuedSession "what should I eat?").completionCalls = 0 ∧
     (send_message demoQueuedSession "what should I eat?").status ≠ 200) ∧
    ((websocket_handle demoQueuedSession none "what should I eat?").retrievalCalls = 0 ∧
     (websocket_handle demoQueuedSession none "what should I eat?").completionCalls = 0 ∧
     (websocket_handle demoQueuedSession none "what should I eat?").sentTokens = false) :=
  ⟨C2_ingestion_gate.1 demoQueuedSession "what should I eat?"
      ⟨"queued", "Files queued for processing", none⟩ (by decide) (by decide),
   C2_ingestion_gate.2.1 demoQueuedSession none "what should I eat?"
      ⟨"queued", "Files queued for processing", none⟩ (by decide) (by decide)⟩

/-! ## C8 — initial ingestion status at session creation -/

/-- C8: creating a session with at least one accepted file writes a `queued`
entry in the handler itself (the background pipeline only runs afterwards);
with no accepted files the entry is `completed` immediately, so the message
gate never blocks a file-less session. -/
theorem C8_create_session_initial_status (files : List UploadMeta) :
    (files.filter validate_file ≠ [] →
      (create_chat_session files).ingest.status = "queued" ∧
      (create_chat_session files).backgroundScheduled = true) ∧
    (files.filter validate_file = [] →
      (create_chat_session files).ingest.status = "completed" ∧
      (create_chat_session files).backgroundScheduled = false ∧
      ingestGateBlocks (some (create_chat_session files).ingest) = false) := by
  constructor <;> intro h <;>
    simp [create_chat_session, h, ingestGateBlocks]

/-- C8 witness: one accepted PDF yields `queued`; no files yields `completed`
and an open gate. -/
theorem C8_create_session_witness :
    ((create_chat_session [⟨"r.pdf", "application/pdf", some 1024⟩]).ingest.status = "queued" ∧
     (create_chat_session [⟨"r.pdf", "application/pdf", some 1024⟩]).backgroundScheduled = true) ∧
    ((create_chat_session []).ingest.status = "completed" ∧
     (create_chat_session []).backgroundScheduled = false ∧
     ingestGateBlocks (some (create_chat_session []).ingest) = false) :=
  ⟨(C8_create_session_initial_status [⟨"r.pdf", "application/pdf", some 1024⟩]).1 (by decide),
   (C8_create_session_initial_status []).2 (by decide)⟩

/-! ## C6 — ingestion percent monotonicity

The per-file updates and the completion write are monotone, but the `except`
handler writes `{"status": "failed", "percent": 0}` (chatbot.py line 252), so
the transition into `Failed` resets the percent and can strictly decrease it. -/

/-- C6 counterexample: with two files whose second raises, the trace's
percents run `none, none, 0, 0, 0, 50, 0` — the transition into `Failed`
drops 50 → 0, so the percent sequence is not monotone. -/
theorem C6_counterexample_failed_drops_percent :
    percentMonoB (ingest_files_background demoFilesSecondFails none) = false ∧
    (ingest_files_background demoFilesSecondFails none).map (fun s => s.task.percent) =
      [none, none, some 0, some 0, some 0, some 50, some 0] ∧
    ((ingest_files_background demoFilesSecondFails none).getLast?).map
      (fun s => s.task.status) = some "failed" := by
  refine ⟨?_, ?_, ?_⟩ <;> decide

/-! ## C7 — a per-file failure aborts the whole run

There is no `try/except` inside the per-file loop; a raise while processing
one file goes straight to the function-level handler, which records `Failed`
and never reaches the remaining files. -/

/-- C7 counterexample: with two files whose first raises, the run terminates
`Failed` and the second file is never processed — no snapshot ever holds an
artefact for `b.pdf`, refuting "a failure never blocks the remaining files". -/
theorem C7_counterexample_failure_blocks_rest :
    ((ingest_files_background demoFilesFirstFails none).getLast?).map
      (fun s => s.task.status) = some "failed" ∧
    (ingest_files_background demoFilesFirstFails none).all
      (fun s => !(s.indexes.contains "b.pdf") && !(s.ocrJson.contains "b.pdf")) = true := by
  refine ⟨?_, ?_⟩ <;> decide


theorem getLast?_cons_of_ne_nil {α : Type} (a : α) {l : List α} (h : l ≠ []) :
    (a :: l).getLast? = l.getLast? := by
  cases l with
  | nil => exact absurd rfl h
  | cons b t => simp [List.getLast?_cons_cons]

theorem ingestGo_ne_nil (n : Nat) (meta : Option String) (i : Nat) (cur : IngSnapshot)
    (fs : List IngFile) : ingestGo n meta i cur fs ≠ [] := by
  cases fs with
  | nil => simp [ingestGo]
  | cons f fs =>
    simp only [ingestGo]
    rcases f.outcome with _ | e <;> simp

theorem pdfPaths_cons (f : IngFile) (fs : List IngFile) :
    pdfPaths (f :: fs) = if f.isPdf then f.path :: pdfPaths fs else pdfPaths fs := by
  by_cases h : f.isPdf <;> simp [pdfPaths, h]

theorem ingestStateC_indexes (n i : Nat) (cur : IngSnapshot) (f : IngFile) :
    (ingestStateC n i cur f).indexes =
      if f.isPdf then cur.indexes ++ [f.path] else cur.indexes := by
  by_cases h : f.isPdf <;> simp [ingestStateC, ingestStateB, ingestStateA, h]

theorem ingestGo_all_ok (n : Nat) (meta : Option String) :
    ∀ (fs : List IngFile) (i : Nat) (cur : IngSnapshot),
      (∀ g ∈ fs, g.outcome = none) →
      ∃ s, (ingestGo n meta i cur fs).getLast? = some s ∧
        (meta = none → s.task.status = "completed" ∧ s.task.percent = some 100) ∧
        (∀ e, meta = some e → s.task.status = "failed") ∧
        s.indexes = cur.indexes ++ pdfPaths fs := by
  intro fs
  induction fs with
  | nil =>
    intro i cur _
    rcases meta with _ | e
    · exact ⟨ingestDoneState n cur, by simp [ingestGo],
        fun _ => ⟨rfl, rfl⟩, by simp, by simp [pdfPaths, ingestDoneState]⟩
    · exact ⟨ingestFailState (ingestDoneState n cur) e, by simp [ingestGo],
        by simp, fun _ _ => rfl, by simp [pdfPaths, ingestDoneState, ingestFailState]⟩
  | cons f fs ih =>
    intro i cur hok
    have hf : f.outcome = none := hok f (by simp)
    simp only [ingestGo, hf]
    obtain ⟨s, hs, h1, h2, h3⟩ := ih (i + 1) (ingestStateC n i cur f)
      (fun g hg => hok g (by simp [hg]))
    refine ⟨s, ?_, h1, h2, ?_⟩
    · rw [getLast?_cons_of_ne_nil _ (by simp),
        getLast?_cons_of_ne_nil _ (by simp),
        getLast?_cons_of_ne_nil _ (ingestGo_ne_nil n meta (i + 1) (ingestStateC n i cur f) fs)]
      exact hs
    · rw [h3, ingestStateC_indexes, pdfPaths_cons]
      by_cases hp : f.isPdf <;> simp [hp]

theorem ingestGo_first_failure (n : Nat) (meta : Option String) (f : IngFile)
    (e : String) (post : List IngFile) (hf : f.outcome = some e) :
    ∀ (pre : List IngFile) (i : Nat) (cur : IngSnapshot),
      (∀ g ∈ pre, g.outcome = none) →
      ∃ s, (ingestGo n meta i cur (pre ++ f :: post)).getLast? = some s ∧
        s.task.status = "failed" ∧
        s.task.detail = "Ingestion failed: " ++ e ∧
        s.task.percent = some 0 ∧
        s.indexes = cur.indexes ++ pdfPaths pre := by
  intro pre
  induction pre with
  | nil =>
    intro i cur _
    refine ⟨ingestFailState (ingestStateB n i cur) e, ?_, rfl, rfl, rfl, ?_⟩
    · simp [ingestGo, hf]
    · simp [pdfPaths, ingestFailState, ingestStateB, ingestStateA]
  | cons g pre ih =>
    intro i cur hok
    have hg : g.outcome = none := hok g (by simp)
    have hsplit : (g :: pre) ++ f :: post = g :: (pre ++ f :: post) := rfl
    rw [hsplit]
    simp only [ingestGo, hg]
    obtain ⟨s, hs, h1, h2, h3, h4⟩ := ih (i + 1) (ingestStateC n i cur g)
      (fun x hx => hok x (by simp [hx]))
    refine ⟨s, ?_, h1, h2, h3, ?_⟩
    · rw [getLast?_cons_of_ne_nil _ (by simp),
        getLast?_cons_of_ne_nil _ (by simp),
        getLast?_cons_of_ne_nil _ (ingestGo_ne_nil n meta (i + 1) (ingestStateC n i cur g) (pre ++ f :: post))]
      exact hs
    · rw [h4, ingestStateC_indexes, pdfPaths_cons]
      by_cases hp : g.isPdf <;> simp [hp]

theorem ingestGo_completed_mem (n : Nat) (e : String) :
    ∀ (fs : List IngFile) (i : Nat) (cur : IngSnapshot),
      (∀ g ∈ fs, g.outcome = none) →
      ∃ s ∈ ingestGo n (some e) i cur fs, s.task.status = "completed" := by
  intro fs
  induction fs with
  | nil =>
    intro i cur _
    exact ⟨ingestDoneState n cur, by simp [ingestGo], rfl⟩
  | cons f fs ih =>
    intro i cur hok
    have hf : f.outcome = none := hok f (by simp)
    obtain ⟨s, hmem, hst⟩ := ih (i + 1) (ingestStateC n i cur f)
      (fun g hg => hok g (by simp [hg]))
    exact ⟨s, by simp [ingestGo, hf]; right; right; right; exact hmem, hst⟩

theorem ingestStateA_status (n i : Nat) (cur : IngSnapshot) :
    (ingestStateA n i cur).task.status = cur.task.status := rfl

theorem ingestStateA_percent (n i : Nat) (cur : IngSnapshot) :
    (ingestStateA n i cur).task.percent = cur.task.percent := rfl

theorem ingestStateB_status (n i : Nat) (cur : IngSnapshot) :
    (ingestStateB n i cur).task.status = cur.task.status := rfl

theorem ingestStateB_percent (n i : Nat) (cur : IngSnapshot) :
    (ingestStateB n i cur).task.percent = some (pctOf i n) := rfl

theorem ingestStateC_status (n i : Nat) (cur : IngSnapshot) (f : IngFile) :
    (ingestStateC n i cur f).task.status = cur.task.status := by
  by_cases h : f.isPdf <;> simp [ingestStateC, ingestStateB, ingestStateA, h]

theorem ingestStateC_percent (n i : Nat) (cur : IngSnapshot) (f : IngFile) :
    (ingestStateC n i cur f).task.percent = some (pctOf i n) := by
  by_cases h : f.isPdf <;> simp [ingestStateC, ingestStateB, ingestStateA, h]

theorem ingestDoneState_status (n : Nat) (cur : IngSnapshot) :
    (ingestDoneState n cur).task.status = "completed" := rfl

theorem ingestDoneState_percent (n : Nat) (cur : IngSnapshot) :
    (ingestDoneState n cur).task.percent = some 100 := rfl

theorem ingestFailState_status (cur : IngSnapshot) (e : String) :
    (ingestFailState cur e).task.status = "failed" := rfl

theorem ingestFailState_percent (cur : IngSnapshot) (e : String) :
    (ingestFailState cur e).task.percent = some 0 := rfl

theorem lg_spec : ∀ (fuel n : Nat), n ≤ fuel → 1 ≤ n →
    2 ^ lg fuel n ≤ n ∧ n < 2 ^ (lg fuel n + 1) := by
  intro fuel
  induction fuel with
  | zero => intro n h1 h2; omega
  | succ fuel ih =>
    intro n h1 h2
    rw [lg]
    split
    · next hlt => constructor <;> simp <;> omega
    · next hge =>
      have hn2 : 2 ≤ n := by omega
      have hd1 : n / 2 ≤ fuel := by omega
      have hd2 : 1 ≤ n / 2 := by omega
      obtain ⟨ihl, ihr⟩ := ih (n / 2) hd1 hd2
      constructor
      · rw [pow_succ]
        have := Nat.div_add_mod n 2
        omega
      · rw [pow_succ] at ihr
        rw [pow_succ, pow_succ]
        have := Nat.div_add_mod n 2
        omega

theorem nlog2_spec {n : Nat} (h : 1 ≤ n) :
    2 ^ nlog2 n ≤ n ∧ n < 2 ^ (nlog2 n + 1) :=
  lg_spec n n le_rfl h

theorem rne_ge (p q : Nat) : p / q ≤ rne p q := by
  unfold rne
  split
  · exact le_rfl
  · split
    · omega
    · split <;> omega

theorem rne_le (p q : Nat) : rne p q ≤ p / q + 1 := by
  unfold rne
  split
  · omega
  · split
    · omega
    · split <;> omega

theorem rne_exact {p q : Nat} (hq : 0 < q) (hd : p % q = 0) : rne p q = p / q := by
  unfold rne
  rw [hd]
  simp [hq]

theorem rne_le_of_lt_mul {p q B : Nat} (hq : 0 < q) (h : p < q * B) : rne p q ≤ B := by
  have h1 : p / q < B := Nat.div_lt_of_lt_mul h
  have := rne_le p q
  omega

theorem le_rne_of_mul_le {p q B : Nat} (h : q * B ≤ p) (hq : 0 < q) : B ≤ rne p q := by
  have h1 : B ≤ p / q := (Nat.le_div_iff_mul_le hq).mpr (by rw [Nat.mul_comm]; exact h)
  have := rne_ge p q
  omega

theorem rne_mono {p1 q1 p2 q2 : Nat} (hq1 : 0 < q1) (hq2 : 0 < q2)
    (h : p1 * q2 ≤ p2 * q1) : rne p1 q1 ≤ rne p2 q2 := by
  have e1 := Nat.div_add_mod p1 q1
  have e2 := Nat.div_add_mod p2 q2
  have hr1 : p1 % q1 < q1 := Nat.mod_lt _ hq1
  have hr2 : p2 % q2 < q2 := Nat.mod_lt _ hq2
  have hm : p1 / q1 ≤ p2 / q2 := by
    by_contra hcon
    push_neg at hcon
    have hstep : p2 / q2 + 1 ≤ p1 / q1 := hcon
    have key1 : p2 * q1 < p1 * q2 := by
      have a1 : p2 * q1 = q2 * (p2 / q2) * q1 + (p2 % q2) * q1 := by
        conv_lhs => rw [← e2]
        ring
      have a2 : (p2 % q2) * q1 < q2 * q1 := mul_lt_mul_of_pos_right hr2 hq1
      have a3 : q2 * (p2 / q2) * q1 + q2 * q1 ≤ q2 * (p1 / q1) * q1 := by
        calc q2 * (p2 / q2) * q1 + q2 * q1 = q2 * ((p2 / q2) + 1) * q1 := by ring
        _ ≤ q2 * (p1 / q1) * q1 :=
            mul_le_mul_of_nonneg_right
              (mul_le_mul_of_nonneg_left hstep (Nat.zero_le q2)) (Nat.zero_le q1)
      have a4 : q2 * (p1 / q1) * q1 ≤ p1 * q2 := by
        have a5 : q1 * (p1 / q1) ≤ p1 := by omega
        calc q2 * (p1 / q1) * q1 = (q1 * (p1 / q1)) * q2 := by ring
        _ ≤ p1 * q2 := mul_le_mul_of_nonneg_right a5 (Nat.zero_le q2)
      omega
    exact absurd (Nat.lt_of_le_of_lt h key1) (Nat.lt_irrefl _)
  rcases Nat.lt_or_ge (p1 / q1) (p2 / q2) with hlt | hge
  · have ha := rne_le p1 q1
    have hb := rne_ge p2 q2
    omega
  · have hmeq : p1 / q1 = p2 / q2 := by omega
    have hrq : (p1 % q1) * q2 ≤ (p2 % q2) * q1 := by
      have b1 : q1 * (p1 / q1) * q2 + (p1 % q1) * q2 = p1 * q2 := by
        conv_rhs => rw [← e1]
        ring
      have b2 : q1 * (p1 / q1) * q2 + (p2 % q2) * q1 = p2 * q1 := by
        conv_rhs => rw [← e2]
        rw [hmeq]
        ring
      rw [← b1, ← b2] at h
      exact Nat.le_of_add_le_add_left h
  -- branch contradictions share this scheme
    have hcomm : q2 * q1 = q1 * q2 := Nat.mul_comm q2 q1
    have hmul2 : 2 * (p1 % q1) * q2 ≤ 2 * (p2 % q2) * q1 := by
      calc 2 * (p1 % q1) * q2 = 2 * ((p1 % q1) * q2) := by ring
      _ ≤ 2 * ((p2 % q2) * q1) := Nat.mul_le_mul_left 2 hrq
      _ = 2 * (p2 % q2) * q1 := by ring
    unfold rne
    rw [hmeq]
    split_ifs <;> try omega
    all_goals exfalso
    case _ hA hB hC =>
      have k1 : q1 * q2 < 2 * (p1 % q1) * q2 := mul_lt_mul_of_pos_right hB hq2
      have k2 : 2 * (p2 % q2) * q1 < q2 * q1 := mul_lt_mul_of_pos_right hC hq1
      linarith
    case _ hA hB hC hD hP =>
      have k1 : q1 * q2 < 2 * (p1 % q1) * q2 := mul_lt_mul_of_pos_right hB hq2
      have k2 : 2 * (p2 % q2) * q1 = q2 * q1 := by
        rw [show 2 * (p2 % q2) = q2 from by omega]
      linarith
    case _ hA hB hP hC =>
      have k1 : q1 * q2 = 2 * (p1 % q1) * q2 := by
        rw [show 2 * (p1 % q1) = q1 from by omega]
      have k2 : 2 * (p2 % q2) * q1 < q2 * q1 := mul_lt_mul_of_pos_right hC hq1
      linarith

theorem flog2_spec {a b : Nat} (ha : 0 < a) (hb : 0 < b) :
    (2 : ℚ) ^ flog2 a b ≤ (a : ℚ) / b ∧ ((a : ℚ) / b) < 2 ^ (flog2 a b + 1) := by
  have hbq : (0 : ℚ) < (b : ℚ) := by exact_mod_cast hb
  have hbK := (nlog2_spec hb).2
  set K := nlog2 b + 1 with hK
  set t := (a * 2 ^ K) / b with ht
  have hdm : b * t + (a * 2 ^ K) % b = a * 2 ^ K := by
    rw [ht]
    exact Nat.div_add_mod (a * 2 ^ K) b
  have hbt : b * t ≤ a * 2 ^ K := by omega
  have hta : a * 2 ^ K < b * (t + 1) := by
    have h2 : (a * 2 ^ K) % b < b := Nat.mod_lt _ hb
    have h3 : b * (t + 1) = b * t + b := by ring
    omega
  have htpos : 1 ≤ t := by
    rw [ht, Nat.le_div_iff_mul_le hb, Nat.one_mul]
    calc b ≤ 2 ^ K := le_of_lt hbK
    _ ≤ a * 2 ^ K := Nat.le_mul_of_pos_left _ ha
  obtain ⟨hL1, hL2⟩ := nlog2_spec htpos
  set L := nlog2 t with hL
  have hflog : flog2 a b = (L : Int) - K := rfl
  have h2K : (0 : ℚ) < (2 : ℚ) ^ (K : Int) := zpow_pos (by norm_num) _
  have hcast : ∀ m : Nat, ((2 ^ m : Nat) : ℚ) = (2 : ℚ) ^ (m : Int) := by
    intro m
    push_cast
    rw [zpow_natCast]
  constructor
  · rw [hflog, zpow_sub₀ (by norm_num : (2 : ℚ) ≠ 0), div_le_div_iff h2K hbq]
    have hnat : 2 ^ L * b ≤ a * 2 ^ K := by
      calc 2 ^ L * b ≤ t * b := Nat.mul_le_mul_right b hL1
      _ = b * t := Nat.mul_comm t b
      _ ≤ a * 2 ^ K := hbt
    calc (2 : ℚ) ^ ((L : Int)) * b = ((2 ^ L * b : Nat) : ℚ) := by
          rw [← hcast]
          push_cast
          ring
    _ ≤ ((a * 2 ^ K : Nat) : ℚ) := by exact_mod_cast hnat
    _ = (a : ℚ) * 2 ^ (K : Int) := by
          rw [← hcast]
          push_cast
          ring
  · rw [hflog, show (L : Int) - K + 1 = ((L + 1 : Nat) : Int) - K by push_cast; ring,
      zpow_sub₀ (by norm_num : (2 : ℚ) ≠ 0), div_lt_div_iff hbq h2K]
    have hnat : a * 2 ^ K < 2 ^ (L + 1) * b := by
      calc a * 2 ^ K < b * (t + 1) := hta
      _ ≤ b * 2 ^ (L + 1) := Nat.mul_le_mul_left b hL2
      _ = 2 ^ (L + 1) * b := Nat.mul_comm _ _
    calc (a : ℚ) * 2 ^ (K : Int) = ((a * 2 ^ K : Nat) : ℚ) := by
          rw [← hcast]
          push_cast
          ring
    _ < ((2 ^ (L + 1) * b : Nat) : ℚ) := by exact_mod_cast hnat
    _ = (2 : ℚ) ^ (((L + 1 : Nat)) : Int) * b := by
          rw [← hcast]
          push_cast
          ring

theorem flog2_mono {a1 b1 a2 b2 : Nat} (ha1 : 0 < a1) (hb1 : 0 < b1)
    (ha2 : 0 < a2) (hb2 : 0 < b2) (h : (a1 : ℚ) / b1 ≤ (a2 : ℚ) / b2) :
    flog2 a1 b1 ≤ flog2 a2 b2 := by
  obtain ⟨h1, _⟩ := flog2_spec ha1 hb1
  obtain ⟨_, h4⟩ := flog2_spec ha2 hb2
  have : (2 : ℚ) ^ flog2 a1 b1 < 2 ^ (flog2 a2 b2 + 1) := lt_of_le_of_lt (h1.trans h) h4
  have := (zpow_lt_zpow_iff_right₀ (by norm_num : (1 : ℚ) < 2)).mp this
  omega

theorem flog2_unique {a b : Nat} {E : Int} (ha : 0 < a) (hb : 0 < b)
    (h1 : (2 : ℚ) ^ E ≤ (a : ℚ) / b) (h2 : ((a : ℚ) / b) < 2 ^ (E + 1)) :
    flog2 a b = E := by
  obtain ⟨h3, h4⟩ := flog2_spec ha hb
  have k1 : (2 : ℚ) ^ E < 2 ^ (flog2 a b + 1) := lt_of_le_of_lt h1 h4
  have k2 : (2 : ℚ) ^ flog2 a b < 2 ^ (E + 1) := lt_of_le_of_lt h3 h2
  have k3 := (zpow_lt_zpow_iff_right₀ (by norm_num : (1 : ℚ) < 2)).mp k1
  have k4 := (zpow_lt_zpow_iff_right₀ (by norm_num : (1 : ℚ) < 2)).mp k2
  omega

theorem dval_nonneg (p : Nat × Int) : 0 ≤ dval p := by
  unfold dval
  positivity

theorem roundF_zero (b : Nat) : roundF 0 b = (0, 0) := by
  simp [roundF]

theorem dval_zero : dval (0, 0) = 0 := by
  simp [dval]

theorem roundF_le_bound {a b : Nat} (ha : 0 < a) (hb : 0 < b) {E : Int}
    (hq : (a : ℚ) / b < 2 ^ E) (hEs : 0 < E + fscale a b) :
    dval (roundF a b) ≤ (2 : ℚ) ^ E := by
  have hbq : (0 : ℚ) < (b : ℚ) := by exact_mod_cast hb
  have haE : (a : ℚ) < (b : ℚ) * 2 ^ E := by
    have := (div_lt_iff₀ hbq).mp hq
    linarith
  unfold roundF
  rw [if_neg (by omega)]
  set s := fscale a b with hs
  split
  · next hs0 =>
    have hnat : a * 2 ^ s.toNat < b * 2 ^ (E + s).toNat := by
      have hq2 : (a : ℚ) * 2 ^ ((s.toNat : Int)) < (b : ℚ) * 2 ^ (((E + s).toNat : Int)) := by
        rw [Int.toNat_of_nonneg hs0, Int.toNat_of_nonneg (le_of_lt hEs)]
        calc (a : ℚ) * 2 ^ s < ((b : ℚ) * 2 ^ E) * 2 ^ s :=
              mul_lt_mul_of_pos_right haE (zpow_pos (by norm_num) s)
        _ = (b : ℚ) * 2 ^ (E + s) := by
              rw [mul_assoc, ← zpow_add₀ (by norm_num : (2 : ℚ) ≠ 0)]
      exact_mod_cast hq2
    have hm : rne (a * 2 ^ s.toNat) b ≤ 2 ^ (E + s).toNat :=
      rne_le_of_lt_mul hb hnat
    show (rne (a * 2 ^ s.toNat) b : ℚ) * 2 ^ (-s) ≤ 2 ^ E
    calc (rne (a * 2 ^ s.toNat) b : ℚ) * 2 ^ (-s)
        ≤ ((2 ^ (E + s).toNat : Nat) : ℚ) * 2 ^ (-s) := by
          apply mul_le_mul_of_nonneg_right _ (le_of_lt (zpow_pos (by norm_num) _))
          exact_mod_cast hm
    _ = (2 : ℚ) ^ (E + s) * 2 ^ (-s) := by
          push_cast
          rw [← zpow_natCast (2 : ℚ) (E + s).toNat, Int.toNat_of_nonneg (le_of_lt hEs)]
    _ = (2 : ℚ) ^ E := by
          rw [← zpow_add₀ (by norm_num : (2 : ℚ) ≠ 0)]
          ring_nf
  · next hs0 =>
    have hj : (0 : Int) ≤ -s := by omega
    have hnat : a < (b * 2 ^ (-s).toNat) * 2 ^ (E + s).toNat := by
      have hq2 : (a : ℚ) < ((b : ℚ) * 2 ^ (((-s).toNat : Int))) * 2 ^ (((E + s).toNat : Int)) := by
        rw [Int.toNat_of_nonneg hj, Int.toNat_of_nonneg (le_of_lt hEs)]
        calc (a : ℚ) < (b : ℚ) * 2 ^ E := haE
        _ = ((b : ℚ) * 2 ^ (-s)) * 2 ^ (E + s) := by
              rw [mul_assoc, ← zpow_add₀ (by norm_num : (2 : ℚ) ≠ 0)]
              ring_nf
      exact_mod_cast hq2
    have hbj : 0 < b * 2 ^ (-s).toNat := by positivity
    have hm : rne a (b * 2 ^ (-s).toNat) ≤ 2 ^ (E + s).toNat :=
      rne_le_of_lt_mul hbj hnat
    show (rne a (b * 2 ^ (-s).toNat) : ℚ) * 2 ^ (-s) ≤ 2 ^ E
    calc (rne a (b * 2 ^ (-s).toNat) : ℚ) * 2 ^ (-s)
        ≤ ((2 ^ (E + s).toNat : Nat) : ℚ) * 2 ^ (-s) := by
          apply mul_le_mul_of_nonneg_right _ (le_of_lt (zpow_pos (by norm_num) _))
          exact_mod_cast hm
    _ = (2 : ℚ) ^ (E + s) * 2 ^ (-s) := by
          push_cast
          rw [← zpow_natCast (2 : ℚ) (E + s).toNat, Int.toNat_of_nonneg (le_of_lt hEs)]
    _ = (2 : ℚ) ^ E := by
          rw [← zpow_add₀ (by norm_num : (2 : ℚ) ≠ 0)]
          ring_nf

theorem bound_le_roundF {a b : Nat} (ha : 0 < a) (hb : 0 < b) {E : Int}
    (hq : (2 : ℚ) ^ E ≤ (a : ℚ) / b) (hEs : 0 ≤ E + fscale a b) :
    (2 : ℚ) ^ E ≤ dval (roundF a b) := by
  have hbq : (0 : ℚ) < (b : ℚ) := by exact_mod_cast hb
  have haE : (b : ℚ) * 2 ^ E ≤ (a : ℚ) := by
    have := (le_div_iff₀ hbq).mp hq
    linarith
  unfold roundF
  rw [if_neg (by omega)]
  set s := fscale a b with hs
  split
  · next hs0 =>
    have hnat : b * 2 ^ (E + s).toNat ≤ a * 2 ^ s.toNat := by
      have hq2 : (b : ℚ) * 2 ^ (((E + s).toNat : Int)) ≤ (a : ℚ) * 2 ^ ((s.toNat : Int)) := by
        rw [Int.toNat_of_nonneg hs0, Int.toNat_of_nonneg hEs]
        calc (b : ℚ) * 2 ^ (E + s) = ((b : ℚ) * 2 ^ E) * 2 ^ s := by
              rw [mul_assoc, ← zpow_add₀ (by norm_num : (2 : ℚ) ≠ 0)]
        _ ≤ (a : ℚ) * 2 ^ s :=
              mul_le_mul_of_nonneg_right haE (le_of_lt (zpow_pos (by norm_num) s))
      exact_mod_cast hq2
    have hm : 2 ^ (E + s).toNat ≤ rne (a * 2 ^ s.toNat) b :=
      le_rne_of_mul_le hnat hb
    show (2 : ℚ) ^ E ≤ (rne (a * 2 ^ s.toNat) b : ℚ) * 2 ^ (-s)
    calc (2 : ℚ) ^ E = (2 : ℚ) ^ (E + s) * 2 ^ (-s) := by
          rw [← zpow_add₀ (by norm_num : (2 : ℚ) ≠ 0)]
          ring_nf
    _ = ((2 ^ (E + s).toNat : Nat) : ℚ) * 2 ^ (-s) := by
          push_cast
          rw [← zpow_natCast (2 : ℚ) (E + s).toNat, Int.toNat_of_nonneg hEs]
    _ ≤ (rne (a * 2 ^ s.toNat) b : ℚ) * 2 ^ (-s) := by
          apply mul_le_mul_of_nonneg_right _ (le_of_lt (zpow_pos (by norm_num) _))
          exact_mod_cast hm
  · next hs0 =>
    have hj : (0 : Int) ≤ -s := by omega
    have hnat : (b * 2 ^ (-s).toNat) * 2 ^ (E + s).toNat ≤ a := by
      have hq2 : ((b : ℚ) * 2 ^ (((-s).toNat : Int))) * 2 ^ (((E + s).toNat : Int)) ≤ (a : ℚ) := by
        rw [Int.toNat_of_nonneg hj, Int.toNat_of_nonneg hEs]
        calc ((b : ℚ) * 2 ^ (-s)) * 2 ^ (E + s) = (b : ℚ) * 2 ^ E := by
              rw [mul_assoc, ← zpow_add₀ (by norm_num : (2 : ℚ) ≠ 0)]
              ring_nf
        _ ≤ (a : ℚ) := haE
      exact_mod_cast hq2
    have hbj : 0 < b * 2 ^ (-s).toNat := by positivity
    have hm : 2 ^ (E + s).toNat ≤ rne a (b * 2 ^ (-s).toNat) :=
      le_rne_of_mul_le hnat hbj
    show (2 : ℚ) ^ E ≤ (rne a (b * 2 ^ (-s).toNat) : ℚ) * 2 ^ (-s)
    calc (2 : ℚ) ^ E = (2 : ℚ) ^ (E + s) * 2 ^ (-s) := by
          rw [← zpow_add₀ (by norm_num : (2 : ℚ) ≠ 0)]
          ring_nf
    _ = ((2 ^ (E + s).toNat : Nat) : ℚ) * 2 ^ (-s) := by
          push_cast
          rw [← zpow_natCast (2 : ℚ) (E + s).toNat, Int.toNat_of_nonneg hEs]
    _ ≤ (rne a (b * 2 ^ (-s).toNat) : ℚ) * 2 ^ (-s) := by
          apply mul_le_mul_of_nonneg_right _ (le_of_lt (zpow_pos (by norm_num) _))
          exact_mod_cast hm

theorem roundF_mono {a1 b1 a2 b2 : Nat} (hb1 : 0 < b1) (hb2 : 0 < b2)
    (h : (a1 : ℚ) / b1 ≤ (a2 : ℚ) / b2) :
    dval (roundF a1 b1) ≤ dval (roundF a2 b2) := by
  rcases Nat.eq_zero_or_pos a1 with rfl | ha1
  · rw [roundF_zero, dval_zero]
    exact dval_nonneg _
  rcases Nat.eq_zero_or_pos a2 with rfl | ha2
  · exfalso
    have hq1 : (0 : ℚ) < (a1 : ℚ) / b1 :=
      div_pos (by exact_mod_cast ha1) (by exact_mod_cast hb1)
    have : ((0 : Nat) : ℚ) / b2 = 0 := by simp
    rw [this] at h
    linarith
  have hb1q : (0 : ℚ) < (b1 : ℚ) := by exact_mod_cast hb1
  have hb2q : (0 : ℚ) < (b2 : ℚ) := by exact_mod_cast hb2
  have he12 : flog2 a1 b1 ≤ flog2 a2 b2 := flog2_mono ha1 hb1 ha2 hb2 h
  by_cases hse : fscale a1 b1 = fscale a2 b2
  · -- same scale: compare the mantissas with rne_mono
    have hab : a1 * b2 ≤ a2 * b1 := by
      have := (div_le_div_iff₀ hb1q hb2q).mp h
      exact_mod_cast this
    unfold roundF
    rw [if_neg (show ¬(a1 = 0 ∨ b1 = 0) by omega),
      if_neg (show ¬(a2 = 0 ∨ b2 = 0) by omega), ← hse]
    set s := fscale a1 b1 with hs
    split
    · next hs0 =>
      show (rne (a1 * 2 ^ s.toNat) b1 : ℚ) * 2 ^ (-s) ≤ (rne (a2 * 2 ^ s.toNat) b2 : ℚ) * 2 ^ (-s)
      apply mul_le_mul_of_nonneg_right _ (le_of_lt (zpow_pos (by norm_num) _))
      have hcross : (a1 * 2 ^ s.toNat) * b2 ≤ (a2 * 2 ^ s.toNat) * b1 := by
        calc (a1 * 2 ^ s.toNat) * b2 = (a1 * b2) * 2 ^ s.toNat := by ring
        _ ≤ (a2 * b1) * 2 ^ s.toNat := Nat.mul_le_mul_right _ hab
        _ = (a2 * 2 ^ s.toNat) * b1 := by ring
      exact_mod_cast rne_mono hb1 hb2 hcross
    · next hs0 =>
      show (rne a1 (b1 * 2 ^ (-s).toNat) : ℚ) * 2 ^ (-s) ≤
        (rne a2 (b2 * 2 ^ (-s).toNat) : ℚ) * 2 ^ (-s)
      apply mul_le_mul_of_nonneg_right _ (le_of_lt (zpow_pos (by norm_num) _))
      have hq1 : 0 < b1 * 2 ^ (-s).toNat := by positivity
      have hq2 : 0 < b2 * 2 ^ (-s).toNat := by positivity
      have hcross : a1 * (b2 * 2 ^ (-s).toNat) ≤ a2 * (b1 * 2 ^ (-s).toNat) := by
        calc a1 * (b2 * 2 ^ (-s).toNat) = (a1 * b2) * 2 ^ (-s).toNat := by ring
        _ ≤ (a2 * b1) * 2 ^ (-s).toNat := Nat.mul_le_mul_right _ hab
        _ = a2 * (b1 * 2 ^ (-s).toNat) := by ring
      exact_mod_cast rne_mono hq1 hq2 hcross
  · -- different scales: strictly larger exponent window on the right
    set e1 := flog2 a1 b1 with he1
    set e2 := flog2 a2 b2 with he2
    have hmax : max e1 (-1022) ≠ max e2 (-1022) := by
      intro hcon
      exact hse (by unfold fscale; rw [← he1, ← he2, hcon])
    have hmaxle : max e1 (-1022) ≤ max e2 (-1022) := max_le_max_right _ he12
    have hmaxlt : max e1 (-1022) < max e2 (-1022) := lt_of_le_of_ne hmaxle hmax
    have he2big : -1022 < max e2 (-1022) := lt_of_le_of_lt (le_max_right _ _) hmaxlt
    have he2eq : max e2 (-1022) = e2 := by
      rcases max_cases e2 (-1022) with ⟨h1, _⟩ | ⟨h1, h2⟩
      · exact h1
      · omega
    have he2n : -1022 ≤ e2 := by omega
    have helt : e1 < e2 := by
      rcases max_cases e1 (-1022) with ⟨h1, _⟩ | ⟨h1, h2⟩ <;> omega
    obtain ⟨hw1l, hw1u⟩ := flog2_spec ha1 hb1
    obtain ⟨hw2l, hw2u⟩ := flog2_spec ha2 hb2
    have hub : dval (roundF a1 b1) ≤ (2 : ℚ) ^ e2 := by
      apply roundF_le_bound ha1 hb1
      · calc (a1 : ℚ) / b1 < 2 ^ (e1 + 1) := hw1u
        _ ≤ 2 ^ e2 := by
            apply zpow_le_zpow_right₀ (by norm_num)
            omega
      · have : max e1 (-1022) ≤ e2 - 1 := by omega
        unfold fscale
        rw [← he1]
        omega
    have hlb : (2 : ℚ) ^ e2 ≤ dval (roundF a2 b2) := by
      apply bound_le_roundF ha2 hb2 hw2l
      unfold fscale
      rw [← he2]
      omega
    linarith

theorem roundF_diag {n : Nat} (hn : 0 < n) : roundF n n = (2 ^ 52, 52) := by
  have hnq : (0 : ℚ) < (n : ℚ) := by exact_mod_cast hn
  have hone : (n : ℚ) / n = 1 := div_self (ne_of_gt hnq)
  have hf : flog2 n n = 0 := by
    apply flog2_unique hn hn
    · rw [hone]
      norm_num
    · rw [hone]
      norm_num
  have hsc : fscale n n = 52 := by
    unfold fscale
    rw [hf]
    decide
  unfold roundF
  rw [if_neg (by omega), hsc, if_pos (by norm_num)]
  have hmod : (n * 2 ^ (52 : Int).toNat) % n = 0 := Nat.mul_mod_right n _
  rw [rne_exact hn hmod, Nat.mul_div_cancel_left _ hn]
  rfl

theorem dmul100_as_roundF (p : Nat × Int) :
    ∃ A B : Nat, dmul100 p = roundF A B ∧ 0 < B ∧ (A : ℚ) / B = 100 * dval p := by
  obtain ⟨m, s⟩ := p
  unfold dmul100
  split
  · next hs0 =>
    refine ⟨100 * m, 2 ^ s.toNat, rfl, Nat.pos_pow_of_pos _ (by norm_num), ?_⟩
    unfold dval
    push_cast
    rw [← zpow_natCast (2 : ℚ) s.toNat, Int.toNat_of_nonneg hs0, zpow_neg]
    field_simp
  · next hs0 =>
    refine ⟨100 * m * 2 ^ (-s).toNat, 1, rfl, Nat.one_pos, ?_⟩
    unfold dval
    push_cast
    rw [← zpow_natCast (2 : ℚ) (-s).toNat, Int.toNat_of_nonneg (by omega : (0 : Int) ≤ -s)]
    simp
    ring

theorem dmul100_mono {p q : Nat × Int} (h : dval p ≤ dval q) :
    dval (dmul100 p) ≤ dval (dmul100 q) := by
  obtain ⟨A1, B1, he1, hb1, hv1⟩ := dmul100_as_roundF p
  obtain ⟨A2, B2, he2, hb2, hv2⟩ := dmul100_as_roundF q
  rw [he1, he2]
  apply roundF_mono hb1 hb2
  rw [hv1, hv2]
  linarith

theorem dtrunc_le_val (p : Nat × Int) : (dtrunc p : ℚ) ≤ dval p := by
  obtain ⟨m, s⟩ := p
  unfold dtrunc dval
  split
  · next hs0 =>
    have h1 : ((m / 2 ^ s.toNat : Nat) : ℚ) ≤ (m : ℚ) / ((2 ^ s.toNat : Nat) : ℚ) :=
      Nat.cast_div_le
    calc ((m / 2 ^ s.toNat : Nat) : ℚ) ≤ (m : ℚ) / ((2 ^ s.toNat : Nat) : ℚ) := h1
    _ = (m : ℚ) * 2 ^ (-s) := by
        push_cast
        rw [← zpow_natCast (2 : ℚ) s.toNat, Int.toNat_of_nonneg hs0, zpow_neg]
        ring
  · next hs0 =>
    have : ((m * 2 ^ (-s).toNat : Nat) : ℚ) = (m : ℚ) * 2 ^ (-s) := by
      push_cast
      rw [← zpow_natCast (2 : ℚ) (-s).toNat, Int.toNat_of_nonneg (by omega : (0 : Int) ≤ -s)]
    rw [this]

theorem val_lt_dtrunc_succ (p : Nat × Int) : dval p < (dtrunc p : ℚ) + 1 := by
  obtain ⟨m, s⟩ := p
  unfold dtrunc dval
  split
  · next hs0 =>
    have hpow : (0 : ℚ) < ((2 ^ s.toNat : Nat) : ℚ) := by positivity
    have h1 : m < 2 ^ s.toNat * (m / 2 ^ s.toNat + 1) := by
      have := Nat.div_add_mod m (2 ^ s.toNat)
      have h2 : m % 2 ^ s.toNat < 2 ^ s.toNat :=
        Nat.mod_lt _ (Nat.pos_pow_of_pos _ (by norm_num))
      have h3 : 2 ^ s.toNat * (m / 2 ^ s.toNat + 1) =
          2 ^ s.toNat * (m / 2 ^ s.toNat) + 2 ^ s.toNat := by ring
      omega
    have h4 : (m : ℚ) < ((2 ^ s.toNat : Nat) : ℚ) * (((m / 2 ^ s.toNat : Nat) : ℚ) + 1) := by
      exact_mod_cast h1
    have h5 : (m : ℚ) * 2 ^ (-s) = (m : ℚ) / ((2 ^ s.toNat : Nat) : ℚ) := by
      push_cast
      rw [← zpow_natCast (2 : ℚ) s.toNat, Int.toNat_of_nonneg hs0, zpow_neg]
      ring
    rw [h5, div_lt_iff₀ hpow]
    linarith
  · next hs0 =>
    have : ((m * 2 ^ (-s).toNat : Nat) : ℚ) = (m : ℚ) * 2 ^ (-s) := by
      push_cast
      rw [← zpow_natCast (2 : ℚ) (-s).toNat, Int.toNat_of_nonneg (by omega : (0 : Int) ≤ -s)]
    rw [this]
    linarith

theorem dtrunc_mono {p q : Nat × Int} (h : dval p ≤ dval q) : dtrunc p ≤ dtrunc q := by
  have h1 := dtrunc_le_val p
  have h2 := val_lt_dtrunc_succ q
  have h3 : (dtrunc p : ℚ) < (dtrunc q : ℚ) + 1 := by linarith
  have h4 : dtrunc p < dtrunc q + 1 := by exact_mod_cast h3
  omega

theorem pctOf_mono {j i : Nat} (n : Nat) (h : j ≤ i) : pctOf j n ≤ pctOf i n := by
  rcases Nat.eq_zero_or_pos n with rfl | hn
  · unfold pctOf roundF
    simp
  · refine dtrunc_mono (dmul100_mono (roundF_mono hn hn ?_))
    have hnq : (0 : ℚ) < (n : ℚ) := by exact_mod_cast hn
    apply div_le_div_of_nonneg_right ?_ hnq.le
    exact_mod_cast h

theorem pctOf_diag {n : Nat} (hn : 0 < n) : pctOf n n = 100 := by
  unfold pctOf
  rw [roundF_diag hn]
  decide

theorem pctOf_le_100 {j n : Nat} (h : j ≤ n) : pctOf j n ≤ 100 := by
  rcases Nat.eq_zero_or_pos n with rfl | hn
  · have hj : j = 0 := by omega
    subst hj
    decide
  · have h1 : pctOf j n ≤ pctOf n n := pctOf_mono n h
    rw [pctOf_diag hn] at h1
    exact h1

theorem percentMonoB_cons_cons (a b : IngSnapshot) (t : List IngSnapshot) :
    percentMonoB (a :: b :: t) =
      ((match a.task.percent, b.task.percent with
        | some p, some q => decide (p ≤ q)
        | _, _ => true) && percentMonoB (b :: t)) := rfl

theorem ingestGo_filter_mono (n : Nat) (meta : Option String) :
    ∀ (fs : List IngFile) (i : Nat) (cur : IngSnapshot),
      i + fs.length = n →
      (cur.task.percent = none ∨ ∃ j, j ≤ i ∧ cur.task.percent = some (pctOf j n)) →
      cur.task.status ≠ "failed" →
      percentMonoB (cur :: (ingestGo n meta i cur fs).filter
        (fun s => decide (s.task.status ≠ "failed"))) = true := by
  intro fs
  induction fs with
  | nil =>
    intro i cur hi hp hs
    have hfilter_done : decide ((ingestDoneState n cur).task.status ≠ "failed") = true := by
      simp [ingestDoneState_status]
    have hfilter_fail : ∀ e, decide ((ingestFailState (ingestDoneState n cur) e).task.status
        ≠ "failed") = false := by
      intro e
      simp [ingestFailState_status]
    have key : ∀ t, percentMonoB (ingestDoneState n cur :: t) = true →
        percentMonoB (cur :: ingestDoneState n cur :: t) = true := by
      intro t ht
      rw [percentMonoB_cons_cons, ht, Bool.and_true, ingestDoneState_percent]
      rcases hcp : cur.task.percent with _ | p
      · rfl
      · rcases hp with hp | ⟨j, hj, hp⟩
        · rw [hcp] at hp
          cases hp
        · rw [hcp] at hp
          injection hp with hpe
          simp only [List.length_nil, Nat.add_zero] at hi
          exact decide_eq_true (hpe ▸ pctOf_le_100 (hi ▸ hj))
    rcases meta with _ | e
    · simp only [ingestGo, List.filter_cons, hfilter_done, List.filter_nil]
      exact key [] rfl
    · simp only [ingestGo, List.filter_cons, hfilter_done, hfilter_fail, List.filter_nil]
      exact key [] rfl
  | cons f fs ih =>
    intro i cur hi hp hs
    have hin : i < n := by simp only [List.length_cons] at hi; omega
    have k1 : decide ((ingestStateA n i cur).task.status ≠ "failed") = true := by
      rw [ingestStateA_status]
      simpa using hs
    have k2 : decide ((ingestStateB n i cur).task.status ≠ "failed") = true := by
      rw [ingestStateB_status]
      simpa using hs
    have pair_cur_a : (match cur.task.percent, (ingestStateA n i cur).task.percent with
        | some p, some q => decide (p ≤ q) | _, _ => true) = true := by
      rw [ingestStateA_percent]
      rcases cur.task.percent with _ | p <;> simp
    have pair_a_b : (match (ingestStateA n i cur).task.percent,
          (ingestStateB n i cur).task.percent with
        | some p, some q => decide (p ≤ q) | _, _ => true) = true := by
      rw [ingestStateA_percent, ingestStateB_percent]
      rcases hcp : cur.task.percent with _ | p
      · rfl
      · rcases hp with hp | ⟨j, hj, hp⟩
        · rw [hcp] at hp; cases hp
        · rw [hcp] at hp
          injection hp with hpe
          exact decide_eq_true (hpe ▸ pctOf_mono n hj)
    rcases hout : f.outcome with _ | e
    · have k3 : decide ((ingestStateC n i cur f).task.status ≠ "failed") = true := by
        rw [ingestStateC_status]
        simpa using hs
      have pair_b_c : (match (ingestStateB n i cur).task.percent,
            (ingestStateC n i cur f).task.percent with
          | some p, some q => decide (p ≤ q) | _, _ => true) = true := by
        rw [ingestStateB_percent, ingestStateC_percent]
        simp
      have tail := ih (i + 1) (ingestStateC n i cur f)
        (by simp only [List.length_cons] at hi; omega)
        (Or.inr ⟨i, by omega, ingestStateC_percent n i cur f⟩)
        (by rw [ingestStateC_status]; exact hs)
      simp only [ingestGo, hout, List.filter_cons, k1, k2, k3, if_true]
      rw [percentMonoB_cons_cons, pair_cur_a, percentMonoB_cons_cons, pair_a_b,
        percentMonoB_cons_cons, pair_b_c]
      simpa using tail
    · have k3 : decide ((ingestFailState (ingestStateB n i cur) e).task.status
          ≠ "failed") = false := by
        simp [ingestFailState_status]
      simp only [ingestGo, hout, List.filter_cons, k1, k2, k3, if_true, List.filter_nil]
      rw [percentMonoB_cons_cons, pair_cur_a, percentMonoB_cons_cons, pair_a_b]
      simp [percentMonoB]


theorem ingestGo_state_shapes (n : Nat) (meta : Option String) :
    ∀ (fs : List IngFile) (i : Nat) (cur : IngSnapshot),
      i + fs.length = n →
      cur.task.status = "in_progress" →
      (cur.task.percent = none ∨ ∃ j, j < n ∧ cur.task.percent = some (pctOf j n)) →
      ∀ s ∈ ingestGo n meta i cur fs,
        (s.task.status = "failed" → s.task.percent = some 0) ∧
        (s.task.status = "completed" → s.task.percent = some 100) ∧
        (s.task.status = "in_progress" →
          s.task.percent = none ∨ ∃ j, j < n ∧ s.task.percent = some (pctOf j n)) := by
  intro fs
  induction fs with
  | nil =>
    intro i cur hi hst hp s hmem
    rcases meta with _ | e
    · simp only [ingestGo, List.mem_singleton] at hmem
      subst hmem
      refine ⟨?_, ?_, ?_⟩ <;> intro h <;>
        simp [ingestDoneState_status, ingestDoneState_percent] at h ⊢
    · simp only [ingestGo, List.mem_cons, List.mem_singleton, List.not_mem_nil, or_false]
        at hmem
      rcases hmem with hmem | hmem <;> subst hmem
      · refine ⟨?_, ?_, ?_⟩ <;> intro h <;>
          simp [ingestDoneState_status, ingestDoneState_percent] at h ⊢
      · refine ⟨?_, ?_, ?_⟩ <;> intro h <;>
          simp [ingestFailState_status, ingestFailState_percent,
            ingestDoneState_status] at h ⊢
  | cons f fs ih =>
    intro i cur hi hst hp s hmem
    have hin : i < n := by simp only [List.length_cons] at hi; omega
    rcases hout : f.outcome with _ | e <;>
      simp only [ingestGo, hout, List.mem_cons, List.mem_singleton, List.not_mem_nil,
        or_false] at hmem
    · rcases hmem with hmem | hmem | hmem | hmem
      · subst hmem
        refine ⟨?_, ?_, ?_⟩ <;> intro h <;> rw [ingestStateA_status, hst] at h
        · simp at h
        · simp at h
        · rw [ingestStateA_percent]
          exact hp
      · subst hmem
        refine ⟨?_, ?_, ?_⟩ <;> intro h <;> rw [ingestStateB_status, hst] at h
        · simp at h
        · simp at h
        · exact Or.inr ⟨i, hin, ingestStateB_percent n i cur⟩
      · subst hmem
        refine ⟨?_, ?_, ?_⟩ <;> intro h <;> rw [ingestStateC_status, hst] at h
        · simp at h
        · simp at h
        · exact Or.inr ⟨i, hin, ingestStateC_percent n i cur f⟩
      · exact ih (i + 1) (ingestStateC n i cur f)
          (by simp only [List.length_cons] at hi; omega)
          (by rw [ingestStateC_status]; exact hst)
          (Or.inr ⟨i, hin, ingestStateC_percent n i cur f⟩) s hmem
    · rcases hmem with hmem | hmem | hmem
      · subst hmem
        refine ⟨?_, ?_, ?_⟩ <;> intro h <;> rw [ingestStateA_status, hst] at h
        · simp at h
        · simp at h
        · rw [ingestStateA_percent]
          exact hp
      · subst hmem
        refine ⟨?_, ?_, ?_⟩ <;> intro h <;> rw [ingestStateB_status, hst] at h
        · simp at h
        · simp at h
        · exact Or.inr ⟨i, hin, ingestStateB_percent n i cur⟩
      · subst hmem
        refine ⟨?_, ?_, ?_⟩ <;> intro h <;> rw [ingestFailState_status] at h
        · rfl
        · simp at h
        · simp at h

/-- C6 as amended: along every ingestion trace the percent updates are
monotone while the run stays out of `Failed` (the filtered trace is
adjacent-pair monotone), with `percent = int((files_done/files_total)*100)`
computed in IEEE binary64 arithmetic (`pctOf`) while in progress and 100 on
completion; the transition into `Failed`, however, rewrites percent to 0,
which can decrease it. -/
theorem C6_amended_percent_monotone_outside_failed (files : List IngFile)
    (meta : Option String) :
    percentMonoB ((ingest_files_background files meta).filter
        (fun s => decide (s.task.status ≠ "failed"))) = true ∧
    (∀ s ∈ ingest_files_background files meta,
        (s.task.status = "failed" → s.task.percent = some 0) ∧
        (s.task.status = "completed" → s.task.percent = some 100) ∧
        (s.task.status = "in_progress" →
          s.task.percent = none ∨ ∃ j, j < files.length ∧
            s.task.percent = some (pctOf j files.length))) := by
  constructor
  · show percentMonoB ((⟨⟨"in_progress", "Starting ingestion...", none⟩, [], []⟩ ::
        ingestGo files.length meta 0 ⟨⟨"in_progress", "Starting ingestion...", none⟩, [], []⟩
          files).filter (fun s => decide (s.task.status ≠ "failed"))) = true
    rw [List.filter_cons]
    have : decide ((⟨⟨"in_progress", "Starting ingestion...", none⟩, [], []⟩ :
        IngSnapshot).task.status ≠ "failed") = true := by decide
    rw [this]
    exact ingestGo_filter_mono files.length meta files 0 _ (by simp) (Or.inl rfl)
      (by decide)
  · intro s hmem
    simp only [ingest_files_background, List.mem_cons] at hmem
    rcases hmem with hmem | hmem
    · subst hmem
      refine ⟨?_, ?_, ?_⟩ <;> intro h
      · simp at h
      · simp at h
      · exact Or.inl rfl
    · exact ingestGo_state_shapes files.length meta files 0 _ (by simp) rfl
        (Or.inl rfl) s hmem

/-- C6 witness: the amended monotonicity on the concrete two-file trace. -/
theorem C6_amended_ingest_witness :
    percentMonoB ((ingest_files_background demoFilesSecondFails none).filter
        (fun s => decide (s.task.status ≠ "failed"))) = true :=
  (C6_amended_percent_monotone_outside_failed demoFilesSecondFails none).1

/-- C7 as amended: a clean run completes with one index per PDF; a failure
while processing one file ends the run `Failed` with that error recorded in
the detail, keeps the indexes already built for the earlier files (no
rollback), and never processes the remaining files; and a raise during the
final metadata write ends the run `Failed` even though completion was already
recorded. -/
theorem C7_amended_failure_aborts_run :
    (∀ (files : List IngFile), (∀ g ∈ files, g.outcome = none) →
      ∃ s, (ingest_files_background files none).getLast? = some s ∧
        s.task.status = "completed" ∧ s.task.percent = some 100 ∧
        s.indexes = pdfPaths files) ∧
    (∀ (pre : List IngFile) (f : IngFile) (post : List IngFile) (e : String)
        (meta : Option String),
      (∀ g ∈ pre, g.outcome = none) → f.outcome = some e →
      ∃ s, (ingest_files_background (pre ++ f :: post) meta).getLast? = some s ∧
        s.task.status = "failed" ∧ s.task.detail = "Ingestion failed: " ++ e ∧
        s.indexes = pdfPaths pre) ∧
    (∀ (files : List IngFile) (e : String), (∀ g ∈ files, g.outcome = none) →
      ∃ s, (ingest_files_background files (some e)).getLast? = some s ∧
        s.task.status = "failed" ∧
        ∃ s2 ∈ ingest_files_background files (some e), s2.task.status = "completed") := by
  refine ⟨?_, ?_, ?_⟩
  · intro files hok
    obtain ⟨s, hs, h1, _, h3⟩ := ingestGo_all_ok files.length none files 0
      ⟨⟨"in_progress", "Starting ingestion...", none⟩, [], []⟩ hok
    refine ⟨s, ?_, (h1 rfl).1, (h1 rfl).2, by simpa using h3⟩
    rw [ingest_files_background]
    rw [getLast?_cons_of_ne_nil _ (ingestGo_ne_nil _ _ _ _ _)]
    exact hs
  · intro pre f post e meta hok hf
    obtain ⟨s, hs, h1, h2, _, h4⟩ :=
      ingestGo_first_failure (pre ++ f :: post).length meta f e post hf pre 0
        ⟨⟨"in_progress", "Starting ingestion...", none⟩, [], []⟩ hok
    refine ⟨s, ?_, h1, h2, by simpa using h4⟩
    rw [ingest_files_background]
    rw [getLast?_cons_of_ne_nil _ (ingestGo_ne_nil _ _ _ _ _)]
    exact hs
  · intro files e hok
    obtain ⟨s, hs, _, h2, _⟩ := ingestGo_all_ok files.length (some e) files 0
      ⟨⟨"in_progress", "Starting ingestion...", none⟩, [], []⟩ hok
    obtain ⟨s2, hmem2, hst2⟩ := ingestGo_completed_mem files.length e files 0
      ⟨⟨"in_progress", "Starting ingestion...", none⟩, [], []⟩ hok
    refine ⟨s, ?_, h2 e rfl, s2, ?_, hst2⟩
    · rw [ingest_files_background]
      rw [getLast?_cons_of_ne_nil _ (ingestGo_ne_nil _ _ _ _ _)]
      exact hs
    · rw [ingest_files_background]
      exact List.mem_cons_of_mem _ hmem2

/-- C7 witness: the failing-file case at a concrete two-file list. -/
theorem C7_amended_ingest_witness :
    ∃ s, (ingest_files_background
        ([⟨"a.pdf", true, none⟩] ++ ⟨"b.pdf", true, some "boom"⟩ :: []) none).getLast? =
          some s ∧
      s.task.status = "failed" ∧ s.task.detail = "Ingestion failed: " ++ "boom" ∧
      s.indexes = pdfPaths [⟨"a.pdf", true, none⟩] :=
  C7_amended_failure_aborts_run.2.1 [⟨"a.pdf", true, none⟩] ⟨"b.pdf", true, some "boom"⟩
    [] "boom" none (by decide) rfl

/-! ## C4 — the duration parser, declaratively

The executable scanners translated from the source are related to the
decomposition predicates stated from the spec's wording. -/

theorem space_not_digit {c : Char} (h : isSpacePy c = true) : isDigitPy c = false := by
  simp only [isSpacePy, Bool.or_eq_true, decide_eq_true_eq] at h
  rcases h with ((((h | h) | h) | h) | h) | h <;> subst h <;> decide

theorem space_not_word {c : Char} (h : isSpacePy c = true) : isWordPy c = false := by
  simp only [isSpacePy, Bool.or_eq_true, decide_eq_true_eq] at h
  rcases h with ((((h | h) | h) | h) | h) | h <;> subst h <;> decide

theorem takeWhile_all_append (p : Char → Bool) (l r : List Char)
    (hl : ∀ c ∈ l, p c = true) (hr : ∀ c, r.head? = some c → p c = false) :
    (l ++ r).takeWhile p = l ∧ (l ++ r).dropWhile p = r := by
  induction l with
  | nil =>
    simp only [List.nil_append]
    cases r with
    | nil => simp
    | cons c r' =>
      have := hr c rfl
      simp [List.takeWhile, List.dropWhile, this]
  | cons c l' ih =>
    have hc : p c = true := hl c (by simp)
    have ih' := ih (fun d hd => hl d (by simp [hd]))
    simp [List.takeWhile, List.dropWhile, hc, ih'.1, ih'.2]

theorem isPrefixOf_append_self (l v : List Char) : l.isPrefixOf (l ++ v) = true := by
  induction l with
  | nil => simp [List.isPrefixOf]
  | cons c l' ih => simp [List.isPrefixOf, ih]

theorem exists_of_isPrefixOf : ∀ {l r : List Char}, l.isPrefixOf r = true →
    ∃ v, r = l ++ v := by
  intro l
  induction l with
  | nil => exact fun {r} _ => ⟨r, rfl⟩
  | cons c l' ih =>
    intro r h
    cases r with
    | nil => simp [List.isPrefixOf] at h
    | cons d r' =>
      simp only [List.isPrefixOf, Bool.and_eq_true, beq_iff_eq] at h
      obtain ⟨v, hv⟩ := ih h.2
      exact ⟨v, by rw [h.1, hv]; rfl⟩

/-- A unit literal whose first character is neither a digit nor whitespace
(true of `day` and `week`). -/
def unitOK (unit : List Char) : Prop :=
  ∀ c, unit.head? = some c → isDigitPy c = false ∧ isSpacePy c = false

theorem matchNumUnit_some_of_decomp {unit : List Char} (ds sp v : List Char)
    (hu : unitOK unit) (hunil : unit ≠ [])
    (hds : ds ≠ []) (hdig : AllDigits ds) (hsp : AllSpace sp) :
    matchNumUnit unit (ds ++ (sp ++ (unit ++ v))) = some (digitsVal ds) := by
  have hrest_head : ∀ c, (sp ++ (unit ++ v)).head? = some c → isDigitPy c = false := by
    intro c hc
    cases sp with
    | nil =>
      cases hun : unit with
      | nil => exact absurd hun hunil
      | cons d u' =>
        rw [hun] at hc
        simp only [List.nil_append, List.cons_append, List.head?_cons,
          Option.some_inj] at hc
        subst hc
        exact (hu _ (by rw [hun]; rfl)).1
    | cons d sp' =>
      simp only [List.cons_append, List.head?_cons, Option.some_inj] at hc
      subst hc
      exact space_not_digit (hsp _ (by simp))
  have hunit_head : ∀ c, (unit ++ v).head? = some c → isSpacePy c = false := by
    intro c hc
    cases hun : unit with
    | nil => exact absurd hun hunil
    | cons d u' =>
      rw [hun] at hc
      simp only [List.cons_append, List.head?_cons, Option.some_inj] at hc
      subst hc
      exact (hu _ (by rw [hun]; rfl)).2
  have h1 := takeWhile_all_append isDigitPy ds (sp ++ (unit ++ v)) hdig hrest_head
  have h2 := takeWhile_all_append isSpacePy sp (unit ++ v) hsp hunit_head
  unfold matchNumUnit
  rw [h1.1, h1.2, h2.2]
  simp [hds, isPrefixOf_append_self]

theorem matchNumUnit_some_decomp {unit l : List Char} {k : Nat}
    (h : matchNumUnit unit l = some k) :
    ∃ ds sp v, l = ds ++ (sp ++ (unit ++ v)) ∧ ds ≠ [] ∧ AllDigits ds ∧ AllSpace sp ∧
      digitsVal ds = k := by
  unfold matchNumUnit at h
  split at h
  · exact absurd h (by simp)
  · rename_i hds
    split at h
    · rename_i hpre
      injection h with hk
      obtain ⟨v, hv⟩ := exists_of_isPrefixOf hpre
      refine ⟨l.takeWhile isDigitPy, (l.dropWhile isDigitPy).takeWhile isSpacePy, v,
        ?_, hds, ?_, ?_, hk⟩
      · conv_lhs => rw [← List.takeWhile_append_dropWhile (p := isDigitPy) (l := l)]
        rw [← hv]
        conv_lhs => rw [← List.takeWhile_append_dropWhile (p := isSpacePy)
          (l := l.dropWhile isDigitPy)]
      · intro c hc
        exact List.mem_takeWhile_imp hc
      · intro c hc
        exact List.mem_takeWhile_imp hc
    · exact absurd h (by simp)

theorem searchNumUnit_some_decomp {unit : List Char} :
    ∀ {l : List Char} {k : Nat}, searchNumUnit unit l = some k →
      NumUnitYields unit l k := by
  intro l
  induction l with
  | nil => intro k h; simp [searchNumUnit] at h
  | cons c cs ih =>
    intro k h
    rw [searchNumUnit] at h
    rcases hm : matchNumUnit unit (c :: cs) with _ | k'
    · rw [hm] at h
      obtain ⟨u, ds, sp, v, heq, h1, h2, h3, h4⟩ := ih h
      exact ⟨c :: u, ds, sp, v, by simp [heq, List.append_assoc], h1, h2, h3, h4⟩
    · rw [hm] at h
      injection h with hk
      subst hk
      obtain ⟨ds, sp, v, heq, h1, h2, h3, h4⟩ := matchNumUnit_some_decomp hm
      exact ⟨[], ds, sp, v, by rw [List.nil_append, ← heq], h1, h2, h3, h4⟩

theorem searchNumUnit_isSome_of_decomp {unit : List Char}
    (hu : unitOK unit) (hunil : unit ≠ []) :
    ∀ (u ds sp v : List Char), ds ≠ [] → AllDigits ds → AllSpace sp →
      (searchNumUnit unit (u ++ ds ++ (sp ++ (unit ++ v)))).isSome = true := by
  intro u
  induction u with
  | nil =>
    intro ds sp v h1 h2 h3
    rw [List.nil_append]
    cases hds : ds with
    | nil => exact absurd hds h1
    | cons d ds' =>
      subst hds
      rw [List.cons_append, searchNumUnit]
      rw [← List.cons_append]
      rw [matchNumUnit_some_of_decomp _ sp v hu hunil h1 h2 h3]
      simp
  | cons c u' ih =>
    intro ds sp v h1 h2 h3
    rw [List.cons_append, List.cons_append, searchNumUnit]
    rcases hm : matchNumUnit unit (c :: (u' ++ ds ++ (sp ++ (unit ++ v)))) with _ | k
    · simpa using ih ds sp v h1 h2 h3
    · simp

theorem searchNumUnit_none_iff {unit : List Char}
    (hu : unitOK unit) (hunil : unit ≠ []) (l : List Char) :
    searchNumUnit unit l = none ↔ ¬ HasNumUnit unit l := by
  constructor
  · intro h hex
    obtain ⟨u, ds, sp, v, heq, h1, h2, h3⟩ := hex
    have hsome := searchNumUnit_isSome_of_decomp hu hunil u ds sp v h1 h2 h3
    rw [← heq, h] at hsome
    simp at hsome
  · intro h
    rcases hs : searchNumUnit unit l with _ | k
    · rfl
    · obtain ⟨u, ds, sp, v, heq, h1, h2, h3, _⟩ := searchNumUnit_some_decomp hs
      exact absurd ⟨u, ds, sp, v, heq, h1, h2, h3⟩ h


theorem wordBoundary_cons (prev : Bool) (c : Char) (u : List Char) :
    WordBoundaryAfter prev (c :: u) ↔ WordBoundaryAfter (isWordPy c) u := by
  cases u with
  | nil => simp [WordBoundaryAfter]
  | cons d u' =>
    unfold WordBoundaryAfter
    rw [getLast?_cons_of_ne_nil c (l := d :: u') (by simp)]
    rcases hgl : (d :: u').getLast? with _ | e
    · rw [List.getLast?_eq_none_iff] at hgl
      cases hgl
    · rfl

theorem month_drop_five (v : List Char) : ("month".data ++ v).drop 5 = v := rfl

theorem match1Month_true_iff (prev : Bool) (l : List Char) :
    match1Month prev l = true ↔
      prev = false ∧ ∃ sp v, l = '1' :: (sp ++ ("month".data ++ v)) ∧ AllSpace sp ∧
        NonWordStart v := by
  constructor
  · intro h
    unfold match1Month at h
    split at h
    · simp at h
    · rename_i c cs
      split at h
      · rename_i hc
        subst hc
        split at h
        · simp at h
        · rename_i hprev
          split at h
          · rename_i hpre
            obtain ⟨v, hv⟩ := exists_of_isPrefixOf hpre
            refine ⟨by simpa using hprev, cs.takeWhile isSpacePy, v, ?_, ?_, ?_⟩
            · rw [← hv]
              conv_lhs => rw [← List.takeWhile_append_dropWhile (p := isSpacePy) (l := cs)]
            · intro d hd
              exact List.mem_takeWhile_imp hd
            · rw [hv, month_drop_five] at h
              intro d hd
              cases v with
              | nil => simp at hd
              | cons e v' =>
                simp only [List.head?_cons, Option.some_inj] at hd
                subst hd
                simpa using h
          · simp at h
      · simp at h
  · rintro ⟨hprev, sp, v, heq, hsp, hnw⟩
    subst hprev
    subst heq
    have hdrop := takeWhile_all_append isSpacePy sp ("month".data ++ v) hsp
      (by
        intro d hd
        simp only [List.cons_append, List.head?_cons, Option.some_inj] at hd
        subst hd
        decide)
    simp only [match1Month, hdrop.2, isPrefixOf_append_self, month_drop_five,
      Bool.false_eq_true, if_false, if_true, ite_true, ite_false, if_pos rfl]
    cases v with
    | nil => rfl
    | cons d v' => simpa using hnw d rfl

theorem search1Month_true_iff : ∀ (l : List Char) (prev : Bool),
    search1Month prev l = true ↔ OneMonthFrom prev l := by
  intro l
  induction l with
  | nil =>
    intro prev
    simp only [search1Month, Bool.false_eq_true, false_iff]
    rintro ⟨u, sp, v, heq, _, _, _⟩
    exact absurd heq (by simp)
  | cons c cs ih =>
    intro prev
    rw [search1Month]
    simp only [Bool.or_eq_true]
    constructor
    · rintro (h | h)
      · obtain ⟨hprev, sp, v, heq, hsp, hnw⟩ := (match1Month_true_iff prev (c :: cs)).1 h
        exact ⟨[], sp, v, by rw [heq]; rfl, hsp, by simp [WordBoundaryAfter, hprev], hnw⟩
      · obtain ⟨u, sp, v, heq, hsp, hb, hnw⟩ := (ih (isWordPy c)).1 h
        exact ⟨c :: u, sp, v, by rw [heq]; rfl, hsp, (wordBoundary_cons prev c u).2 hb, hnw⟩
    · rintro ⟨u, sp, v, heq, hsp, hb, hnw⟩
      cases u with
      | nil =>
        left
        simp only [List.nil_append] at heq
        have hprev : prev = false := by simpa [WordBoundaryAfter] using hb
        injection heq with hc hcs
        subst hc
        exact (match1Month_true_iff prev ('1' :: cs)).2
          ⟨hprev, sp, v, by rw [hcs], hsp, hnw⟩
      | cons c2 u' =>
        right
        injection heq with hc hcs
        subst hc
        exact (ih (isWordPy c)).2
          ⟨u', sp, v, hcs, hsp, (wordBoundary_cons prev c u').1 hb, hnw⟩

theorem hasNumUnit_cons (unit : List Char) (c : Char) (cs : List Char)
    (h : HasNumUnit unit cs) : HasNumUnit unit (c :: cs) := by
  obtain ⟨u, ds, sp, v, heq, h1, h2, h3⟩ := h
  exact ⟨c :: u, ds, sp, v, by simp [heq, List.append_assoc], h1, h2, h3⟩

theorem match30Day_implies_day (prev : Bool) (l : List Char)
    (h : match30Day prev l = true) : HasNumUnit ("day".data) l := by
  unfold match30Day at h
  split at h
  · simp at h
  · rename_i c cs
    split at h
    · rename_i hc30
      obtain ⟨hc, hcs0⟩ := hc30
      subst hc
      split at h
      · simp at h
      · split at h
        · rename_i hpre
          obtain ⟨v, hv⟩ := exists_of_isPrefixOf hpre
          cases cs with
          | nil => simp at hcs0
          | cons c2 cs2 =>
            simp only [List.head?_cons, Option.some_inj] at hcs0
            subst hcs0
            refine ⟨[], ['3', '0'], cs2.takeWhile isSpacePy, v, ?_, by simp, ?_, ?_⟩
            · simp only [List.tail_cons] at hv
              show ('3' :: '0' :: cs2 : List Char) =
                [] ++ ['3', '0'] ++ (cs2.takeWhile isSpacePy ++ ("day".data ++ v))
              rw [← hv]
              conv_lhs => rw [← List.takeWhile_append_dropWhile (p := isSpacePy) (l := cs2)]
              rfl
            · intro d hd
              simp only [List.mem_cons, List.not_mem_nil, or_false] at hd
              rcases hd with rfl | rfl <;> decide
            · intro d hd
              exact List.mem_takeWhile_imp hd
        · simp at h
    · simp at h

theorem search30Day_implies_day : ∀ (l : List Char) (prev : Bool),
    search30Day prev l = true → HasNumUnit ("day".data) l := by
  intro l
  induction l with
  | nil => intro prev h; simp [search30Day] at h
  | cons c cs ih =>
    intro prev h
    rw [search30Day] at h
    simp only [Bool.or_eq_true] at h
    rcases h with h | h
    · exact match30Day_implies_day prev (c :: cs) h
    · exact hasNumUnit_cons _ c cs (ih (isWordPy c) h)


theorem numUnitYields_has {unit s : List Char} {k : Nat}
    (h : NumUnitYields unit s k) : HasNumUnit unit s := by
  obtain ⟨u, ds, sp, v, heq, h1, h2, h3, _⟩ := h
  exact ⟨u, ds, sp, v, heq, h1, h2, h3⟩

/-- C4: the duration parser tries the day pattern, then the week pattern
(result times 7), then the word-bounded `1 month` / `30 day(s)` literals, in
that order with the first match winning, and returns `None` exactly when no
pattern occurs in the lowered message.  (The fourth regex, `\b30\s*day(s)?\b`,
is subsumed by the day pattern and cannot fire on its own.) -/
theorem C4_duration_parse_order (message : String) :
    (∀ n, parse_days_from_text message = some n →
      NumUnitYields ("day".data) (pyLower message.data) n ∨
      (¬ HasNumUnit ("day".data) (pyLower message.data) ∧
        ∃ k, NumUnitYields ("week".data) (pyLower message.data) k ∧ n = k * 7) ∨
      (¬ HasNumUnit ("day".data) (pyLower message.data) ∧
        ¬ HasNumUnit ("week".data) (pyLower message.data) ∧
        HasOneMonth (pyLower message.data) ∧ n = 30)) ∧
    (parse_days_from_text message = none ↔
      ¬ HasNumUnit ("day".data) (pyLower message.data) ∧
      ¬ HasNumUnit ("week".data) (pyLower message.data) ∧
      ¬ HasOneMonth (pyLower message.data)) := by
  have hdayOK : unitOK ("day".data) := by
    intro c hc
    injection hc with h
    subst h
    decide
  have hweekOK : unitOK ("week".data) := by
    intro c hc
    injection hc with h
    subst h
    decide
  have hdaynil : ("day".data) ≠ [] := by decide
  have hweeknil : ("week".data) ≠ [] := by decide
  rcases hd : searchNumUnit ("day".data) (pyLower message.data) with _ | nd
  · rcases hw : searchNumUnit ("week".data) (pyLower message.data) with _ | nw
    · by_cases hm : search1Month false (pyLower message.data) = true
      · have hparse : parse_days_from_text message = some 30 := by
          simp only [parse_days_from_text]
          rw [hd, hw, if_pos hm]
        constructor
        · intro n hn
          rw [hparse] at hn
          injection hn with hn
          subst hn
          exact Or.inr (Or.inr ⟨(searchNumUnit_none_iff hdayOK hdaynil _).1 hd,
            (searchNumUnit_none_iff hweekOK hweeknil _).1 hw,
            (search1Month_true_iff _ false).1 hm, rfl⟩)
        · rw [hparse]
          constructor
          · intro h
            simp at h
          · rintro ⟨_, _, hmonth⟩
            exact absurd ((search1Month_true_iff _ false).1 hm) hmonth
      · by_cases h30 : search30Day false (pyLower message.data) = true
        · exact absurd ((searchNumUnit_none_iff hdayOK hdaynil _).1 hd)
            (by simp only [not_not]; exact search30Day_implies_day _ false h30)
        · have hparse : parse_days_from_text message = none := by
            simp only [parse_days_from_text]
            rw [hd, hw, if_neg hm, if_neg h30]
          constructor
          · intro n hn
            rw [hparse] at hn
            cases hn
          · rw [hparse]
            simp only [true_iff]
            exact ⟨(searchNumUnit_none_iff hdayOK hdaynil _).1 hd,
              (searchNumUnit_none_iff hweekOK hweeknil _).1 hw,
              fun hmonth => hm ((search1Month_true_iff _ false).2 hmonth)⟩
    · have hparse : parse_days_from_text message = some (nw * 7) := by
        simp only [parse_days_from_text]
        rw [hd, hw]
      constructor
      · intro n hn
        rw [hparse] at hn
        injection hn with hn
        subst hn
        exact Or.inr (Or.inl ⟨(searchNumUnit_none_iff hdayOK hdaynil _).1 hd,
          nw, searchNumUnit_some_decomp hw, rfl⟩)
      · rw [hparse]
        constructor
        · intro h
          simp at h
        · rintro ⟨_, hweekN, _⟩
          exact absurd (numUnitYields_has (searchNumUnit_some_decomp hw)) hweekN
  · have hparse : parse_days_from_text message = some nd := by
      simp only [parse_days_from_text]
      rw [hd]
    constructor
    · intro n hn
      rw [hparse] at hn
      injection hn with hn
      subst hn
      exact Or.inl (searchNumUnit_some_decomp hd)
    · rw [hparse]
      constructor
      · intro h
        simp at h
      · rintro ⟨hdayN, _, _⟩
        exact absurd (numUnitYields_has (searchNumUnit_some_decomp hd)) hdayN

/-- C4 witness: `"plan for 2 weeks"` falls to the week pattern and yields 14,
with the corresponding decomposition. -/
theorem C4_duration_parse_order_witness :
    NumUnitYields ("day".data) (pyLower ("plan for 2 weeks").data) 14 ∨
    (¬ HasNumUnit ("day".data) (pyLower ("plan for 2 weeks").data) ∧
      ∃ k, NumUnitYields ("week".data) (pyLower ("plan for 2 weeks").data) k ∧ 14 = k * 7) ∨
    (¬ HasNumUnit ("day".data) (pyLower ("plan for 2 weeks").data) ∧
      ¬ HasNumUnit ("week".data) (pyLower ("plan for 2 weeks").data) ∧
      HasOneMonth (pyLower ("plan for 2 weeks").data) ∧ 14 = 30) :=
  (C4_duration_parse_order "plan for 2 weeks").1 14 (by decide)

/-! C9 machinery -/

theorem append_infix_cases {x y u p v : List Char} (h : x ++ y = u ++ p ++ v)
    (hp : p ≠ []) :
    (∃ w, x = u ++ p ++ w ∧ v = w ++ y) ∨
    (∃ w, u = x ++ w ∧ y = w ++ p ++ v) ∨
    (∃ p1 p2, p = p1 ++ p2 ∧ p1 ≠ [] ∧ p2 ≠ [] ∧ x = u ++ p1 ∧ y = p2 ++ v) := by
  rw [List.append_assoc] at h
  rcases List.append_eq_append_iff.mp h with ⟨a, ha1, ha2⟩ | ⟨c, hc1, hc2⟩
  · exact Or.inr (Or.inl ⟨a, ha1, by rw [ha2, List.append_assoc]⟩)
  · rcases List.append_eq_append_iff.mp hc2.symm with ⟨b, hb1, hb2⟩ | ⟨d, hd1, hd2⟩
    · rcases eq_or_ne c [] with rfl | hcne
      · refine Or.inr (Or.inl ⟨[], by simpa using hc1.symm, ?_⟩)
        simp only [List.nil_append] at hb1
        rw [hb2, ← hb1, List.nil_append]
      · rcases eq_or_ne b [] with rfl | hbne
        · refine Or.inl ⟨[], ?_, ?_⟩
          · rw [hc1]
            simp only [List.append_nil] at hb1
            rw [hb1, List.append_nil]
          · simp only [List.nil_append] at hb2
            rw [hb2]
            simp
        · exact Or.inr (Or.inr ⟨c, b, hb1, hcne, hbne, hc1, hb2⟩)
    · exact Or.inl ⟨d, by rw [hc1, hd1, List.append_assoc], hd2⟩

theorem quad_infix {x q y : List Char}
    (h : HasQuadHash q) : HasQuadHash (x ++ q ++ y) := by
  obtain ⟨u, v, huv⟩ := h
  exact ⟨x ++ u, v ++ y, by simp [huv, List.append_assoc]⟩

theorem getLast?_append_right {x q : List Char} (hq : q ≠ []) :
    (x ++ q).getLast? = q.getLast? := by
  induction x with
  | nil => rfl
  | cons c x ih =>
    rw [List.cons_append, getLast?_cons_of_ne_nil c (by simp [hq]), ih]

theorem mem_of_decomp_all {q p1 p2 : List Char} {P : Char → Prop}
    (hall : ∀ c ∈ q, P c) (hdec : q = p1 ++ p2) : ∀ c ∈ p1, P c := by
  intro c hc
  exact hall c (by rw [hdec]; exact List.mem_append_left _ hc)

theorem quad_append_cases {x y : List Char} (h : HasQuadHash (x ++ y))
    (hx : ¬ HasQuadHash x) (hy : ¬ HasQuadHash y) :
    ∃ p1 p2, p1 ≠ [] ∧ p2 ≠ [] ∧ (∀ c ∈ p1, c = '#') ∧ (∀ c ∈ p2, c = '#') ∧
      (∃ u, x = u ++ p1) ∧ (∃ v, y = p2 ++ v) ∧
      p1 ++ p2 = '#' :: '#' :: '#' :: '#' :: [] := by
  obtain ⟨u, v, huv⟩ := h
  have hq : ('#' :: '#' :: '#' :: '#' :: [] : List Char) ≠ [] := by simp
  have hshape : x ++ y = u ++ ('#' :: '#' :: '#' :: '#' :: []) ++ v := by
    rw [huv]
    simp
  rcases append_infix_cases hshape hq with ⟨w, hw1, _⟩ | ⟨w, _, hw2⟩ | ⟨p1, p2, hp, h1, h2, h3, h4⟩
  · exact absurd ⟨u, w, by rw [hw1]; simp⟩ hx
  · exact absurd ⟨w, v, by rw [hw2]; simp⟩ hy
  · have hall : ∀ c ∈ ('#' :: '#' :: '#' :: '#' :: [] : List Char), c = '#' := by
      intro c hc
      simp only [List.mem_cons, List.not_mem_nil, or_false] at hc
      rcases hc with rfl | rfl | rfl | rfl <;> rfl
    refine ⟨p1, p2, h1, h2, mem_of_decomp_all hall hp, ?_, ⟨u, h3⟩, ⟨v, h4⟩, hp.symm⟩
    intro c hc
    exact hall c (by rw [hp]; exact List.mem_append_right _ hc)

theorem no_quad_append {x y : List Char} (hx : ¬ HasQuadHash x) (hy : ¬ HasQuadHash y)
    (hb : (∀ c, y.head? = some c → c ≠ '#') ∨ (∀ c, x.getLast? = some c → c ≠ '#')) :
    ¬ HasQuadHash (x ++ y) := by
  intro h
  obtain ⟨p1, p2, h1, h2, hall1, hall2, ⟨u, hu⟩, ⟨v, hv⟩, _⟩ := quad_append_cases h hx hy
  rcases hb with hb | hb
  · cases p2 with
    | nil => exact h2 rfl
    | cons c p2' =>
      exact hb c (by rw [hv]; rfl) (hall2 c (by simp))
  · cases hp1 : p1.getLast? with
    | none =>
      rw [List.getLast?_eq_none_iff] at hp1
      exact h1 hp1
    | some c =>
      have hc : c ∈ p1 := List.mem_of_mem_getLast? hp1
      refine hb c ?_ (hall1 c hc)
      rw [hu, getLast?_append_right h1, hp1]

theorem quad_length {l : List Char} (h : HasQuadHash l) : 4 ≤ l.length := by
  obtain ⟨u, v, huv⟩ := h
  rw [huv]
  simp only [List.length_append, List.length_cons]
  omega

theorem no_quad_of_short {l : List Char} (h : l.length ≤ 3) : ¬ HasQuadHash l :=
  fun hq => absurd (quad_length hq) (by omega)

theorem subHashGo_head? (l : List Char) : (subHashGo l).head? = l.head? := by
  cases l with
  | nil => rw [subHashGo_nil]
  | cons c cs =>
    rw [subHashGo_cons]
    by_cases hc : c = '#'
    · rw [if_pos hc]
      by_cases h4 : 4 ≤ (c :: cs.takeWhile (fun d => d = '#')).length
      · rw [if_pos h4]
        subst hc
        rfl
      · rw [if_neg h4]
        rfl
    · rw [if_neg hc]
      rfl

theorem subHashGo_no_quad (l : List Char) : ¬ HasQuadHash (subHashGo l) := by
  induction l using subHashGo.induct with
  | case1 => rw [subHashGo_nil]; exact no_quad_of_short (by simp)
  | case2 cs ih =>
    rw [subHashGo_cons, if_pos rfl]
    have hrun : ∀ run : List Char, run.length ≤ 3 →
        ¬ HasQuadHash (run ++ subHashGo (cs.dropWhile (fun d => d = '#'))) := by
      intro run hlen
      refine no_quad_append (no_quad_of_short hlen) ih (Or.inl ?_)
      intro d hd
      rw [subHashGo_head?] at hd
      have hh := List.head?_dropWhile_not (fun d => decide (d = '#')) cs
      rw [hd] at hh
      simpa using hh
    by_cases h4 : 4 ≤ (('#' : Char) :: cs.takeWhile (fun d => d = '#')).length
    · rw [if_pos h4]
      exact hrun ['#', '#', '#'] (by simp)
    · rw [if_neg h4]
      refine hrun ('#' :: cs.takeWhile (fun d => d = '#')) ?_
      simp only [List.length_cons] at h4 ⊢
      omega
  | case3 c cs hc ih =>
    rw [subHashGo_cons, if_neg hc]
    have h1 : ¬ HasQuadHash [c] := no_quad_of_short (by simp)
    have happ := no_quad_append h1 ih
      (Or.inr (by intro d hd; injection hd with h; subst h; simpa using hc))
    simpa using happ

theorem allSpace_takeWhile (l : List Char) : AllSpace (l.takeWhile isSpacePy) :=
  fun _ hc => List.mem_takeWhile_imp hc

theorem afterLastNL_no_nl (l : List Char) : ∀ c ∈ afterLastNL l, c ≠ '\n' := by
  intro c hc
  unfold afterLastNL at hc
  rw [List.mem_reverse] at hc
  have h := List.mem_takeWhile_imp (p := fun c => decide (c ≠ '\n')) hc
  simpa using h

theorem afterLastNL_mem {l : List Char} {c : Char} (hc : c ∈ afterLastNL l) : c ∈ l := by
  unfold afterLastNL at hc
  rw [List.mem_reverse] at hc
  rw [← List.mem_reverse]
  exact ((List.takeWhile_sublist (fun c => decide (c ≠ '\n'))).subset) hc

theorem collapseGo_head? (l : List Char) : (collapseGo l).head? = l.head? := by
  cases l with
  | nil => rw [collapseGo_nil]
  | cons c cs =>
    rw [collapseGo_cons]
    by_cases hc : c = '\n'
    · rw [if_pos hc]
      by_cases h3 : 3 ≤ countNL ((c :: cs).takeWhile isSpacePy)
      · rw [if_pos h3]
        subst hc
        rfl
      · rw [if_neg h3]
        subst hc
        have : isSpacePy '\n' = true := by decide
        simp [List.takeWhile_cons, this]
    · rw [if_neg hc]
      rfl

theorem collapse_cons_ne {c : Char} (cs : List Char) (hc : c ≠ '\n') :
    collapseGo (c :: cs) = c :: collapseGo cs := by
  rw [collapseGo_cons, if_neg hc]

theorem no_quad_of_no_hash {l : List Char} (h : ∀ c ∈ l, c ≠ '#') : ¬ HasQuadHash l := by
  rintro ⟨u, v, huv⟩
  exact h '#' (by rw [huv]; simp) rfl

theorem space_ne_hash {c : Char} (h : isSpacePy c = true) : c ≠ '#' := by
  simp only [isSpacePy, Bool.or_eq_true, decide_eq_true_eq] at h
  rcases h with ((((h | h) | h) | h) | h) | h <;> subst h <;> decide

theorem collapse_front3 : ∀ (cs t : List Char),
    collapseGo cs = '#' :: '#' :: '#' :: t → ∃ cs2, cs = '#' :: '#' :: '#' :: cs2 := by
  have step : ∀ (cs t : List Char), collapseGo cs = '#' :: t →
      ∃ cs1, cs = '#' :: cs1 ∧ collapseGo cs1 = t := by
    intro cs t h
    have hh := collapseGo_head? cs
    rw [h] at hh
    cases cs with
    | nil => simp at hh
    | cons c cs1 =>
      simp only [List.head?_cons, Option.some_inj] at hh
      subst hh
      rw [collapse_cons_ne cs1 (by decide)] at h
      injection h with _ h2
      exact ⟨cs1, rfl, h2⟩
  intro cs t h
  obtain ⟨cs1, rfl, h1⟩ := step cs _ h
  obtain ⟨cs2, rfl, h2⟩ := step cs1 _ h1
  obtain ⟨cs3, rfl, _⟩ := step cs2 _ h2
  exact ⟨cs3, rfl⟩

theorem collapse_quad (l : List Char) (h : HasQuadHash (collapseGo l)) :
    HasQuadHash l := by
  induction l using collapseGo.induct with
  | case1 =>
    rw [collapseGo_nil] at h
    exact absurd (quad_length h) (by simp)
  | case2 cs ih =>
    rw [collapseGo_cons, if_pos rfl] at h
    set w := (('\n' : Char) :: cs).takeWhile isSpacePy with hw
    set r := (('\n' : Char) :: cs).dropWhile isSpacePy with hr
    set R := (if 3 ≤ countNL w then '\n' :: '\n' :: afterLastNL w else w) with hR
    have hRspace : ∀ c ∈ R, isSpacePy c = true := by
      intro c hc
      rw [hR] at hc
      split at hc
      · simp only [List.mem_cons] at hc
        rcases hc with rfl | rfl | hc
        · decide
        · decide
        · exact allSpace_takeWhile _ c (afterLastNL_mem hc)
      · exact allSpace_takeWhile _ c hc
    by_cases hCR : HasQuadHash (collapseGo r)
    · have hq := ih hCR
      have hsplit : ('\n' : Char) :: cs = w ++ r := (List.takeWhile_append_dropWhile ..).symm
      rw [hsplit]
      obtain ⟨u, v, huv⟩ := hq
      exact ⟨w ++ u, v, by rw [huv]; simp [List.append_assoc]⟩
    · have hRq : ¬ HasQuadHash R :=
        no_quad_of_no_hash (fun c hc => space_ne_hash (hRspace c hc))
      obtain ⟨p1, p2, h1, _, hall1, _, ⟨u, hu⟩, _, _⟩ := quad_append_cases h hRq hCR
      cases p1 with
      | nil => exact absurd rfl h1
      | cons d p1' =>
        have hd : d ∈ R := by rw [hu]; simp
        exact absurd (hall1 d (by simp)) (space_ne_hash (hRspace d hd))
  | case3 c cs hc ih =>
    rw [collapse_cons_ne cs hc] at h
    by_cases hCR : HasQuadHash (collapseGo cs)
    · obtain ⟨u, v, huv⟩ := ih hCR
      exact ⟨c :: u, v, by rw [huv]; rfl⟩
    · have hone : ¬ HasQuadHash [c] := no_quad_of_short (by simp)
      have hshape : ([c] : List Char) ++ collapseGo cs = c :: collapseGo cs := rfl
      rw [← hshape] at h
      obtain ⟨p1, p2, h1, _, _, _, ⟨u, hu⟩, ⟨v, hv⟩, hp12⟩ := quad_append_cases h hone hCR
      have hu' : p1 = [c] := by
        cases u with
        | nil => simpa using hu.symm
        | cons a u' =>
          rw [List.cons_append] at hu
          injection hu with _ h4
          cases u' with
          | nil =>
            simp only [List.nil_append] at h4
            exact absurd h4.symm h1
          | cons b u'' => simp at h4
      rw [hu', List.cons_append, List.nil_append] at hp12
      injection hp12 with hcc hp2
      obtain ⟨cs2, hcs2⟩ := collapse_front3 cs v (by rw [hv, hp2]; rfl)
      exact ⟨[], cs2, by rw [hcc, hcs2]; rfl⟩

theorem tnl_decomp {l : List Char} : HasTripleNewline l ↔
    ∃ u a b v, l = u ++ ('\n' :: (a ++ '\n' :: (b ++ ['\n']))) ++ v ∧
      AllSpace a ∧ AllSpace b := by
  constructor
  · rintro ⟨u, a, b, v, rfl, ha, hb⟩
    exact ⟨u, a, b, v, by simp [List.append_assoc], ha, hb⟩
  · rintro ⟨u, a, b, v, rfl, ha, hb⟩
    exact ⟨u, a, b, v, by simp [List.append_assoc], ha, hb⟩

theorem tnl_pat_count (a b : List Char) :
    3 ≤ countNL ('\n' :: (a ++ '\n' :: (b ++ ['\n']))) := by
  simp only [countNL, List.count_cons_self, List.count_append]
  omega

theorem tnl_pat_all_space {a b : List Char} (ha : AllSpace a) (hb : AllSpace b) :
    AllSpace ('\n' :: (a ++ '\n' :: (b ++ ['\n']))) := by
  intro c hc
  simp only [List.mem_cons, List.mem_append, List.not_mem_nil, or_false] at hc
  rcases hc with rfl | hc | rfl | hc | rfl
  · decide
  · exact ha c hc
  · decide
  · exact hb c hc
  · decide

theorem head?_dropWhile_space {l : List Char} {c : Char}
    (h : (l.dropWhile isSpacePy).head? = some c) : isSpacePy c = false := by
  induction l with
  | nil => simp at h
  | cons a l ih =>
    rw [List.dropWhile_cons] at h
    split at h
    · exact ih h
    · next hna =>
      simp only [List.head?_cons, Option.some_inj] at h
      subst h
      simpa using hna

theorem collapse_no_tnl (l : List Char) : ¬ HasTripleNewline (collapseGo l) := by
  induction l using collapseGo.induct with
  | case1 =>
    rw [collapseGo_nil]
    rintro ⟨u, a, b, v, h, _, _⟩
    have := congrArg List.length h
    simp at this
    omega
  | case2 cs ih =>
    rw [collapseGo_cons, if_pos rfl]
    set w := (('\n' : Char) :: cs).takeWhile isSpacePy with hw
    set r := (('\n' : Char) :: cs).dropWhile isSpacePy with hr
    set R := (if 3 ≤ countNL w then '\n' :: '\n' :: afterLastNL w else w) with hR
    intro htnl
    have hcount : countNL R ≤ 2 := by
      rw [hR]
      split
      · simp only [countNL, List.count_cons_self]
        have hz : (afterLastNL w).count '\n' = 0 :=
          List.count_eq_zero.mpr (fun hmem => afterLastNL_no_nl w _ hmem rfl)
        omega
      · next hn => omega
    rcases tnl_decomp.mp htnl with ⟨u, a, b, v, hshape, ha, hb⟩
    rcases append_infix_cases hshape (by simp) with
      ⟨w2, hw1, _⟩ | ⟨w2, _, hw2⟩ | ⟨p1, p2, hp, _, h2, _, h4⟩
    · rw [hw1] at hcount
      simp only [countNL, List.count_append] at hcount
      have h3q := tnl_pat_count a b
      simp only [countNL] at h3q
      omega
    · exact ih (tnl_decomp.mpr ⟨w2, a, b, v, hw2, ha, hb⟩)
    · cases p2 with
      | nil => exact h2 rfl
      | cons d p2tl =>
        have hd_in : d ∈ '\n' :: (a ++ '\n' :: (b ++ ['\n'])) := by rw [hp]; simp
        have hd_space : isSpacePy d = true := tnl_pat_all_space ha hb d hd_in
        have hCRhead : (collapseGo r).head? = some d := by rw [h4]; rfl
        rw [collapseGo_head?] at hCRhead
        rw [hr] at hCRhead
        rw [head?_dropWhile_space hCRhead] at hd_space
        exact Bool.false_ne_true hd_space
  | case3 c cs hc ih =>
    rw [collapse_cons_ne cs hc]
    intro htnl
    rcases tnl_decomp.mp htnl with ⟨u, a, b, v, hshape, ha, hb⟩
    have hshape2 : ([c] : List Char) ++ collapseGo cs =
        u ++ ('\n' :: (a ++ '\n' :: (b ++ ['\n']))) ++ v := hshape
    rcases append_infix_cases hshape2 (by simp) with
      ⟨w2, hw1, _⟩ | ⟨w2, _, hw2⟩ | ⟨p1, p2, hp, h1, _, h3, _⟩
    · have := congrArg List.length hw1
      simp at this
      omega
    · exact ih (tnl_decomp.mpr ⟨w2, a, b, v, hw2, ha, hb⟩)
    · have hp1 : p1 = [c] := by
        cases u with
        | nil => simpa using h3.symm
        | cons x u1 =>
          rw [List.cons_append] at h3
          injection h3 with _ h4
          cases u1 with
          | nil =>
            simp only [List.nil_append] at h4
            exact absurd h4.symm h1
          | cons y u2 => simp at h4
      rw [hp1, List.cons_append, List.nil_append] at hp
      injection hp with hcc _
      exact hc hcc.symm

theorem glyph_not_space {c : Char} (h : isGlyph c = true) : isSpacePy c = false := by
  simp only [isGlyph, Bool.or_eq_true, decide_eq_true_eq] at h
  rcases h with (h | h) | h <;> subst h <;> decide

theorem glyph_ne_nl {c : Char} (h : isGlyph c = true) : c ≠ '\n' := by
  simp only [isGlyph, Bool.or_eq_true, decide_eq_true_eq] at h
  rcases h with (h | h) | h <;> subst h <;> decide

theorem ends_nl_iff {u : List Char} :
    (∃ u2, u = u2 ++ ['\n']) ↔ u.getLast? = some '\n' := by
  constructor
  · rintro ⟨u2, rfl⟩
    rw [getLast?_append_right (by simp)]
    rfl
  · intro h
    induction u with
    | nil => simp at h
    | cons a t ih =>
      cases t with
      | nil =>
        simp only [List.getLast?_singleton, Option.some_inj] at h
        exact ⟨[], by rw [h]; rfl⟩
      | cons b t2 =>
        rw [List.getLast?_cons_cons] at h
        obtain ⟨u2, hu2⟩ := ih h
        exact ⟨a :: u2, by rw [List.cons_append, ← hu2]⟩

theorem afterLastNL_eq_nil {w : List Char} (hw : w ≠ []) (h : afterLastNL w = []) :
    w.getLast? = some '\n' := by
  unfold afterLastNL at h
  rw [List.reverse_eq_nil_iff] at h
  rw [← List.head?_reverse]
  cases hrev : w.reverse with
  | nil => exact absurd (List.reverse_eq_nil_iff.mp hrev) hw
  | cons c t =>
    rw [hrev, List.takeWhile_cons] at h
    split at h
    · simp at h
    · next hc =>
      simp only [decide_eq_true_eq, Decidable.not_not] at hc
      rw [hc]
      rfl

theorem collapse_bb (l : List Char) :
    ∀ b, HasBadBullet b (collapseGo l) → HasBadBullet b l := by
  induction l using collapseGo.induct with
  | case1 =>
    intro b h
    rw [collapseGo_nil] at h
    obtain ⟨u, g, d, v, hshape, _, _, _, _⟩ := h
    have := congrArg List.length hshape
    simp at this
    omega
  | case2 cs ih =>
    intro b h
    rw [collapseGo_cons, if_pos rfl] at h
    set w := (('\n' : Char) :: cs).takeWhile isSpacePy with hw
    set r := (('\n' : Char) :: cs).dropWhile isSpacePy with hr
    set R := (if 3 ≤ countNL w then '\n' :: '\n' :: afterLastNL w else w) with hR
    have hwcons : w = '\n' :: cs.takeWhile isSpacePy := by
      rw [hw, List.takeWhile_cons, if_pos (by decide)]
    have hRspace : ∀ c ∈ R, isSpacePy c = true := by
      intro c hcm
      rw [hR] at hcm
      split at hcm
      · simp only [List.mem_cons] at hcm
        rcases hcm with rfl | rfl | hcm
        · decide
        · decide
        · exact allSpace_takeWhile _ c (afterLastNL_mem hcm)
      · exact allSpace_takeWhile _ c hcm
    have hRne : R ≠ [] := by
      rw [hR]
      split
      · simp
      · rw [hwcons]; simp
    have hsplit : ('\n' : Char) :: cs = w ++ r := (List.takeWhile_append_dropWhile ..).symm
    obtain ⟨u, g, d, v, hshape, hg, hd, hdn, hcond⟩ := h
    have hshape2 : R ++ collapseGo r = u ++ ([g] ++ [d]) ++ v := by
      rw [hshape]; simp
    rcases append_infix_cases hshape2 (by simp) with
      ⟨w2, hw1, _⟩ | ⟨w2, hu2, hw2⟩ | ⟨p1, p2, hp, h1, h2, h3, h4⟩
    · have hgR : g ∈ R := by rw [hw1]; simp
      have := hRspace g hgR
      rw [glyph_not_space hg] at this
      simp at this
    · have hune : u ≠ [] := by
        rw [hu2]
        intro hnil
        exact hRne (List.append_eq_nil.mp hnil).1
      rcases hcond with ⟨hunil, _⟩ | hui
      · exact absurd hunil hune
      have hlast : u.getLast? = some '\n' := ends_nl_iff.mp hui
      rw [hu2] at hlast
      by_cases hw2nil : w2 = []
      · subst hw2nil
        rw [List.append_nil] at hlast
        have hwlast : w.getLast? = some '\n' := by
          rw [hR] at hlast
          split at hlast
          · by_cases hA : afterLastNL w = []
            · exact afterLastNL_eq_nil (by rw [hwcons]; simp) hA
            · have hre : (('\n' : Char) :: '\n' :: afterLastNL w) = ['\n', '\n'] ++ afterLastNL w := rfl
              rw [hre, getLast?_append_right hA] at hlast
              have hmem : '\n' ∈ afterLastNL w := List.mem_of_mem_getLast? hlast
              exact absurd rfl (afterLastNL_no_nl w '\n' hmem)
          · exact hlast
        have hCR : collapseGo r = g :: d :: v := by simpa using hw2
        have hrhead : r.head? = some g := by rw [← collapseGo_head?, hCR]; rfl
        cases hre : r with
        | nil => rw [hre] at hrhead; simp at hrhead
        | cons a r1 =>
          rw [hre] at hrhead
          simp only [List.head?_cons, Option.some_inj] at hrhead
          rw [hrhead] at hre
          rw [hre, collapse_cons_ne r1 (glyph_ne_nl hg)] at hCR
          injection hCR with _ hCR2
          have hr1head : r1.head? = some d := by rw [← collapseGo_head?, hCR2]; rfl
          cases hr1e : r1 with
          | nil => rw [hr1e] at hr1head; simp at hr1head
          | cons a2 r2 =>
            rw [hr1e] at hr1head
            simp only [List.head?_cons, Option.some_inj] at hr1head
            rw [hr1head] at hr1e
            refine ⟨w, g, d, r2, ?_, hg, hd, hdn, Or.inr (ends_nl_iff.mpr hwlast)⟩
            rw [hsplit, hre, hr1e]
      · rw [getLast?_append_right hw2nil] at hlast
        have hbbCR : HasBadBullet false (collapseGo r) := by
          refine ⟨w2, g, d, v, ?_, hg, hd, hdn, Or.inr (ends_nl_iff.mpr hlast)⟩
          rw [hw2]; simp
        obtain ⟨ur, g2, d2, v2, hsh2, hg2, hd2, hdn2, hcond2⟩ := ih false hbbCR
        rcases hcond2 with ⟨_, hfal⟩ | ⟨u3, hu3⟩
        · simp at hfal
        refine ⟨w ++ ur, g2, d2, v2, ?_, hg2, hd2, hdn2,
          Or.inr ⟨w ++ u3, by rw [hu3, List.append_assoc]⟩⟩
        rw [hsplit, hsh2, List.append_assoc]
    · cases p1 with
      | nil => exact absurd rfl h1
      | cons x p1t =>
        have hx : x = g := by
          simp only [List.cons_append, List.nil_append] at hp
          injection hp with h5 _
          exact h5.symm
        have hgR : g ∈ R := by rw [h3, ← hx]; simp
        have := hRspace g hgR
        rw [glyph_not_space hg] at this
        simp at this
  | case3 c cs hc ih =>
    intro b h
    rw [collapse_cons_ne cs hc] at h
    obtain ⟨u, g, d, v, hshape, hg, hd, hdn, hcond⟩ := h
    cases u with
    | nil =>
      simp only [List.nil_append] at hshape
      injection hshape with hcg htail
      have hcshead : cs.head? = some d := by rw [← collapseGo_head?, htail]; rfl
      cases hcse : cs with
      | nil => rw [hcse] at hcshead; simp at hcshead
      | cons a cs1 =>
        rw [hcse] at hcshead
        simp only [List.head?_cons, Option.some_inj] at hcshead
        rcases hcond with ⟨_, hb⟩ | ⟨u2, hu2⟩
        · refine ⟨[], g, d, cs1, ?_, hg, hd, hdn, Or.inl ⟨rfl, hb⟩⟩
          rw [List.nil_append, hcg, hcshead]
        · exact absurd hu2 (by cases u2 <;> simp)
    | cons x u1 =>
      rw [List.cons_append] at hshape
      injection hshape with hxc hsh1
      rcases hcond with ⟨habs, _⟩ | ⟨u2, hu2⟩
      · simp at habs
      cases u2 with
      | nil =>
        simp only [List.nil_append, List.cons_eq_cons] at hu2
        exact absurd (hxc.trans hu2.1) hc
      | cons y u3 =>
        rw [List.cons_append] at hu2
        injection hu2 with _ hu1e
        have hbbCR : HasBadBullet false (collapseGo cs) :=
          ⟨u1, g, d, v, hsh1, hg, hd, hdn, Or.inr ⟨u3, hu1e⟩⟩
        obtain ⟨ur, g2, d2, v2, hsh2, hg2, hd2, hdn2, hcond2⟩ := ih false hbbCR
        rcases hcond2 with ⟨_, hfal⟩ | ⟨u4, hu4⟩
        · simp at hfal
        refine ⟨c :: ur, g2, d2, v2, ?_, hg2, hd2, hdn2,
          Or.inr ⟨c :: u4, by rw [hu4, List.cons_append]⟩⟩
        rw [List.cons_append, hsh2]

theorem tripleMatchAt_none_of_ne {c : Char} (cs : List Char) (hc : c ≠ '*') :
    tripleMatchAt (c :: cs) = none := by
  unfold tripleMatchAt
  split
  · next rest heq =>
    injection heq with h1 _
    exact absurd h1 hc
  · rfl

theorem tripleMatchAt_some {l w after : List Char}
    (h : tripleMatchAt l = some (w, after)) :
    l = '*' :: '*' :: '*' :: (w ++ '*' :: '*' :: '*' :: after) ∧ w ≠ [] ∧ StarFree w := by
  unfold tripleMatchAt at h
  split at h
  · next r0 rest =>
    split at h
    · exact absurd h (by simp)
    · next hne =>
      split at h
      · next after2 heq2 =>
        simp only [Option.some_inj, Prod.mk.injEq] at h
        obtain ⟨hw, hafter⟩ := h
        refine ⟨?_, ?_, ?_⟩
        · have hsplit : rest = rest.takeWhile (fun c => c ≠ '*') ++
              rest.dropWhile (fun c => c ≠ '*') := (List.takeWhile_append_dropWhile ..).symm
          rw [hsplit, hw, heq2, hafter]
        · rw [← hw]; exact hne
        · intro c hcm
          rw [← hw] at hcm
          have := List.mem_takeWhile_imp hcm
          simpa using this
      · exact absurd h (by simp)
  · exact absurd h (by simp)

theorem quad_of_within {l1 l2 : List Char} (h : List.IsInfix l1 l2)
    (hq : HasQuadHash l1) : HasQuadHash l2 := by
  obtain ⟨s, t, hst⟩ := h
  rw [← hst]
  exact quad_infix hq

theorem quad_cons_ne {c : Char} {l : List Char} (h : HasQuadHash (c :: l))
    (hc : c ≠ '#') : HasQuadHash l := by
  obtain ⟨u, v, huv⟩ := h
  cases u with
  | nil =>
    injection huv with h1 _
    exact absurd h1 hc
  | cons a u1 =>
    rw [List.cons_append] at huv
    injection huv with _ h2
    exact ⟨u1, v, h2⟩

theorem splitGo_within : ∀ (acc l : List Char),
    ∀ line ∈ splitGo acc l, List.IsInfix line (acc.reverse ++ l) := by
  intro acc l
  induction acc, l using splitGo.induct with
  | case1 => simp [splitGo_nil]
  | case2 acc hne =>
    intro line hline
    rw [splitGo_nil, if_neg hne] at hline
    simp only [List.mem_singleton] at hline
    subst hline
    exact ⟨[], [], by simp⟩
  | case3 acc cs hhead ih =>
    intro line hline
    rw [splitGo_cons, if_pos rfl, if_pos hhead] at hline
    rcases List.mem_cons.mp hline with rfl | h2
    · exact ⟨[], '\r' :: cs, by simp⟩
    · have h3 := ih line h2
      simp only [List.reverse_nil, List.nil_append] at h3
      refine h3.trans ?_
      have h4 : List.IsSuffix cs.tail ('\r' :: cs) := by
        refine (List.tail_suffix cs).trans ?_
        exact ⟨['\r'], rfl⟩
      exact (h4.trans ⟨acc.reverse, rfl⟩).isInfix
  | case4 acc cs hhead ih =>
    intro line hline
    rw [splitGo_cons, if_pos rfl, if_neg hhead] at hline
    rcases List.mem_cons.mp hline with rfl | h2
    · exact ⟨[], '\r' :: cs, by simp⟩
    · have h3 := ih line h2
      simp only [List.reverse_nil, List.nil_append] at h3
      refine h3.trans ?_
      have h4 : List.IsSuffix cs (acc.reverse ++ '\r' :: cs) := ⟨acc.reverse ++ ['\r'], by simp⟩
      exact h4.isInfix
  | case5 acc c cs hne hbr ih =>
    intro line hline
    rw [splitGo_cons, if_neg hne, if_pos hbr] at hline
    rcases List.mem_cons.mp hline with rfl | h2
    · exact ⟨[], c :: cs, by simp⟩
    · have h3 := ih line h2
      simp only [List.reverse_nil, List.nil_append] at h3
      refine h3.trans ?_
      have h4 : List.IsSuffix cs (acc.reverse ++ c :: cs) := ⟨acc.reverse ++ [c], by simp⟩
      exact h4.isInfix
  | case6 acc c cs hne hnbr ih =>
    intro line hline
    rw [splitGo_cons, if_neg hne, if_neg hnbr] at hline
    have h3 := ih line hline
    have h4 : (c :: acc).reverse ++ cs = acc.reverse ++ c :: cs := by simp
    rw [h4] at h3
    exact h3

theorem splitGo_no_break : ∀ (acc l : List Char),
    (∀ c ∈ acc, isLineBreakPy c = false) →
    ∀ line ∈ splitGo acc l, ∀ c ∈ line, isLineBreakPy c = false := by
  intro acc l
  induction acc, l using splitGo.induct with
  | case1 =>
    intro _ line hline
    rw [splitGo_nil, if_pos rfl] at hline
    simp at hline
  | case2 acc hne =>
    intro hacc line hline
    rw [splitGo_nil, if_neg hne] at hline
    simp only [List.mem_singleton] at hline
    subst hline
    intro c hcm
    exact hacc c (List.mem_reverse.mp hcm)
  | case3 acc cs hhead ih =>
    intro hacc line hline
    rw [splitGo_cons, if_pos rfl, if_pos hhead] at hline
    rcases List.mem_cons.mp hline with rfl | h2
    · intro c hcm
      exact hacc c (List.mem_reverse.mp hcm)
    · exact ih (by simp) line h2
  | case4 acc cs hhead ih =>
    intro hacc line hline
    rw [splitGo_cons, if_pos rfl, if_neg hhead] at hline
    rcases List.mem_cons.mp hline with rfl | h2
    · intro c hcm
      exact hacc c (List.mem_reverse.mp hcm)
    · exact ih (by simp) line h2
  | case5 acc c cs hne hbr ih =>
    intro hacc line hline
    rw [splitGo_cons, if_neg hne, if_pos hbr] at hline
    rcases List.mem_cons.mp hline with rfl | h2
    · intro d hdm
      exact hacc d (List.mem_reverse.mp hdm)
    · exact ih (by simp) line h2
  | case6 acc c cs hne hnbr ih =>
    intro hacc line hline
    rw [splitGo_cons, if_neg hne, if_neg hnbr] at hline
    refine ih ?_ line hline
    intro d hd
    rcases List.mem_cons.mp hd with rfl | hd2
    · simpa using hnbr
    · exact hacc d hd2

theorem pyStrip_within (l : List Char) : List.IsInfix (pyStrip l) l := by
  unfold pyStrip
  have h1 : List.IsSuffix (l.dropWhile isSpacePy) l := List.dropWhile_suffix _
  have h2 : List.IsSuffix ((l.dropWhile isSpacePy).reverse.dropWhile isSpacePy)
      (l.dropWhile isSpacePy).reverse := List.dropWhile_suffix _
  have h3 := List.reverse_prefix.mpr h2
  rw [List.reverse_reverse] at h3
  exact h3.isInfix.trans h1.isInfix

theorem procLine_infix_part {line : List Char} :
    List.IsInfix (((pyStrip line).drop 1).dropWhile isSpacePy) line := by
  have h1 : List.IsSuffix (((pyStrip line).drop 1).dropWhile isSpacePy)
      ((pyStrip line).drop 1) := List.dropWhile_suffix _
  have h2 : List.IsSuffix ((pyStrip line).drop 1) (pyStrip line) := List.drop_suffix _ _
  exact ((h1.trans h2).isInfix).trans (pyStrip_within line)

theorem procLine_quad {line : List Char} (h : HasQuadHash (procLine line)) :
    HasQuadHash line := by
  unfold procLine at h
  split at h
  · exact absurd (quad_length h) (by simp)
  · split at h
    · have h2 := quad_cons_ne (quad_cons_ne h (by decide)) (by decide)
      exact quad_of_within procLine_infix_part h2
    · exact quad_of_within (pyStrip_within line) h

theorem procLine_no_nl {line : List Char}
    (hline : ∀ c ∈ line, isLineBreakPy c = false) :
    ∀ c ∈ procLine line, c ≠ '\n' := by
  have hofl : ∀ c ∈ line, c ≠ '\n' := by
    intro c hc heq
    subst heq
    have := hline _ hc
    simp [isLineBreakPy] at this
  intro c hc
  unfold procLine at hc
  split at hc
  · simp at hc
  · split at hc
    · rcases List.mem_cons.mp hc with rfl | hc2
      · decide
      rcases List.mem_cons.mp hc2 with rfl | hc3
      · decide
      · exact hofl c (procLine_infix_part.subset hc3)
    · exact hofl c ((pyStrip_within line).subset hc)

theorem procLine_shape {line : List Char} :
    ∀ g d v, procLine line = g :: d :: v → isGlyph g = true → isSpacePy d = true →
      False := by
  intro g d v hpe hg hd
  unfold procLine at hpe
  split at hpe
  · simp at hpe
  · split at hpe
    · injection hpe with h1 _
      rw [← h1] at hg
      exact absurd hg (by decide)
    · next hnb =>
      apply hnb
      rw [hpe]
      have hg2 := hg
      simp only [isGlyph, Bool.or_eq_true, decide_eq_true_eq] at hg2
      simp [bulletHead, hd]
      rcases hg2 with (h | h) | h <;> simp [h]

theorem joinNL_nil : joinNL [] = [] := rfl

theorem joinNL_single (x : List Char) : joinNL [x] = x := by
  simp [joinNL, List.intercalate]

theorem joinNL_cons2 (x y : List Char) (rest : List (List Char)) :
    joinNL (x :: y :: rest) = x ++ '\n' :: joinNL (y :: rest) := by
  simp [joinNL, List.intercalate, List.intersperse_cons_cons]

theorem join_no_quad : ∀ lines : List (List Char),
    (∀ L ∈ lines, ¬ HasQuadHash L) → ¬ HasQuadHash (joinNL lines) := by
  intro lines
  induction lines with
  | nil =>
    intro _
    rw [joinNL_nil]
    exact no_quad_of_short (by simp)
  | cons x rest ih =>
    intro hL
    cases rest with
    | nil =>
      rw [joinNL_single]
      exact hL x (by simp)
    | cons y rest2 =>
      rw [joinNL_cons2]
      refine no_quad_append (hL x (by simp)) ?_ (Or.inl ?_)
      · intro hq
        have hq2 := quad_cons_ne hq (by decide)
        exact ih (fun L hLm => hL L (List.mem_cons_of_mem _ hLm)) hq2
      · intro d hd
        simp only [List.head?_cons, Option.some_inj] at hd
        subst hd
        decide

theorem join_no_bb : ∀ lines : List (List Char),
    (∀ L ∈ lines, (∀ c ∈ L, c ≠ '\n') ∧
      (∀ g d v, L = g :: d :: v → isGlyph g = true → isSpacePy d = true → False)) →
    ¬ HasBadBullet true (joinNL lines) := by
  intro lines
  induction lines with
  | nil =>
    intro _ h
    rw [joinNL_nil] at h
    obtain ⟨u, g, d, v, hs, _, _, _, _⟩ := h
    have := congrArg List.length hs
    simp at this
    omega
  | cons x rest ih =>
    intro hok h
    cases rest with
    | nil =>
      rw [joinNL_single] at h
      obtain ⟨u, g, d, v, hs, hg, hd, hdn, hcond⟩ := h
      rcases hcond with ⟨rfl, _⟩ | ⟨u2, rfl⟩
      · exact (hok x (by simp)).2 g d v (by simpa using hs) hg hd
      · refine (hok x (by simp)).1 '\n' ?_ rfl
        rw [hs]
        simp
    | cons y rest2 =>
      rw [joinNL_cons2] at h
      obtain ⟨u, g, d, v, hs, hg, hd, hdn, hcond⟩ := h
      have hs2 : x ++ '\n' :: joinNL (y :: rest2) = u ++ ([g] ++ [d]) ++ v := by
        rw [hs]; simp
      rcases append_infix_cases hs2 (by simp) with
        ⟨w2, hx2, _⟩ | ⟨w2, hu2, hy2⟩ | ⟨p1, p2, hp, h1, h2, h3, h4⟩
      · rcases hcond with ⟨rfl, _⟩ | ⟨u2, rfl⟩
        · exact (hok x (by simp)).2 g d w2 (by simpa using hx2) hg hd
        · refine (hok x (by simp)).1 '\n' ?_ rfl
          rw [hx2]
          simp
      · cases w2 with
        | nil =>
          simp only [List.nil_append, List.cons_append] at hy2
          injection hy2 with hgg _
          rw [← hgg] at hg
          exact absurd hg (by decide)
        | cons z w3 =>
          rw [List.cons_append] at hy2
          injection hy2 with _ hJ
          have hbb : HasBadBullet true (joinNL (y :: rest2)) := by
            refine ⟨w3, g, d, v, by rw [hJ]; simp, hg, hd, hdn, ?_⟩
            by_cases hw3 : w3 = []
            · exact Or.inl ⟨hw3, rfl⟩
            · rcases hcond with ⟨hunil, _⟩ | hui
              · rw [hu2] at hunil
                simp at hunil
              · have hlast := ends_nl_iff.mp hui
                rw [hu2] at hlast
                rw [getLast?_append_right (by simp)] at hlast
                have hzw : (z :: w3 : List Char) = [z] ++ w3 := rfl
                rw [hzw, getLast?_append_right hw3] at hlast
                exact Or.inr (ends_nl_iff.mpr hlast)
          exact ih (fun L hL => hok L (List.mem_cons_of_mem _ hL)) hbb
      · have hp12 : p1 = [g] ∧ p2 = [d] := by
          cases p1 with
          | nil => exact absurd rfl h1
          | cons a p1t =>
            simp only [List.cons_append, List.nil_append] at hp
            injection hp with hga htl
            cases p1t with
            | nil =>
              simp only [List.nil_append] at htl
              exact ⟨by rw [hga], htl.symm⟩
            | cons b p1t2 =>
              rw [List.cons_append] at htl
              injection htl with _ htl2
              exact absurd (List.append_eq_nil.mp htl2.symm).2 h2
        rw [hp12.2] at h4
        rw [List.cons_append, List.nil_append] at h4
        injection h4 with hdd _
        exact hdn hdd.symm

theorem tripleMatchAt_of_shape {w v : List Char} (hw : w ≠ []) (hsf : StarFree w) :
    tripleMatchAt ('*' :: '*' :: '*' :: (w ++ '*' :: '*' :: '*' :: v)) = some (w, v) := by
  obtain ⟨ht, hd⟩ := takeWhile_all_append (fun c => decide (c ≠ '*')) w
    ('*' :: '*' :: '*' :: v)
    (fun c hc => by simpa using hsf c hc)
    (fun c hc => by
      simp only [List.head?_cons, Option.some_inj] at hc
      subst hc
      simp)
  simp only [tripleMatchAt]
  rw [ht, hd, if_neg hw]
  rfl

theorem subTriple_id : ∀ l, ¬ HasTripleEmph l → subTripleGo l = l := by
  intro l
  induction l using subTripleGo.induct with
  | case1 => intro _; exact subTripleGo_nil
  | case2 c cs w after hm ih =>
    intro h
    exfalso
    obtain ⟨hshape, hne, hsf⟩ := tripleMatchAt_some hm
    exact h ⟨[], w, after, by rw [hshape, List.nil_append], hne, hsf⟩
  | case3 c cs hm ih =>
    intro h
    have hcs : ¬ HasTripleEmph cs := by
      rintro ⟨u, w2, v2, hsh, hn, hsf⟩
      exact h ⟨c :: u, w2, v2, by rw [hsh, List.cons_append], hn, hsf⟩
    rw [subTripleGo_cons_none hm, ih hcs]

theorem subTriple_rewrite : ∀ (u w v : List Char), StarFree u → w ≠ [] → StarFree w →
    subTripleGo (u ++ '*' :: '*' :: '*' :: (w ++ '*' :: '*' :: '*' :: v)) =
      u ++ '*' :: '*' :: (w ++ '*' :: '*' :: subTripleGo v) := by
  intro u
  induction u with
  | nil =>
    intro w v _ hw hsf
    rw [List.nil_append, List.nil_append,
      subTripleGo_cons_some (tripleMatchAt_of_shape hw hsf)]
  | cons c u1 ih =>
    intro w v hsfu hw hsf
    have hc : c ≠ '*' := hsfu c (by simp)
    rw [List.cons_append, subTripleGo_cons_none (tripleMatchAt_none_of_ne _ hc),
      ih w v (fun d hd => hsfu d (List.mem_cons_of_mem _ hd)) hw hsf, List.cons_append]

theorem format_no_quad (s : String) (b : Bool) :
    ¬ HasQuadHash (format_response s b).data := by
  unfold format_response
  split
  · next hall =>
    rintro ⟨u, v, huv⟩
    have h4 : '#' ∈ s.data := by rw [huv]; simp
    have h5 := List.all_eq_true.mp hall '#' h4
    exact absurd h5 (by decide)
  · intro hq
    have hq2 := collapse_quad _ hq
    refine join_no_quad _ ?_ hq2
    intro L hL
    rw [List.mem_map] at hL
    obtain ⟨line, hline, rfl⟩ := hL
    intro hqL
    have hqline := procLine_quad hqL
    simp only [splitLinesPy] at hline
    have hinf := splitGo_within [] _ line hline
    simp only [List.reverse_nil, List.nil_append] at hinf
    exact subHashGo_no_quad _ (collapse_quad _ (quad_of_within hinf hqline))

theorem format_no_bb (s : String) (b : Bool) :
    ¬ HasBadBullet true (format_response s b).data := by
  unfold format_response
  split
  · next hall =>
    rintro ⟨u, g, d, v, huv, hg, _, _, _⟩
    have h4 : g ∈ s.data := by rw [huv]; simp
    have h5 := List.all_eq_true.mp hall g h4
    rw [glyph_not_space hg] at h5
    exact Bool.false_ne_true h5
  · intro hbb
    have hbb2 := collapse_bb _ true hbb
    refine join_no_bb _ ?_ hbb2
    intro L hL
    rw [List.mem_map] at hL
    obtain ⟨line, hline, rfl⟩ := hL
    simp only [splitLinesPy] at hline
    have hnb := splitGo_no_break [] _ (by simp) line hline
    exact ⟨procLine_no_nl hnb, procLine_shape⟩

theorem format_no_tnl (s : String) (h : s.data.all isSpacePy = false) (b : Bool) :
    ¬ HasTripleNewline (format_response s b).data := by
  rw [format_response, if_neg (by rw [h]; simp)]
  exact collapse_no_tnl _

set_option maxRecDepth 4000 in
theorem format_counterexample_eval :
    format_response "***a****b***" false = "**a***b***" := by
  simp [format_response, isSpacePy, pyStrip,
    subTripleGo_cons, subTripleGo_nil, tripleMatchAt,
    subHashGo_cons, subHashGo_nil, collapseGo_cons, collapseGo_nil,
    splitLinesPy, splitGo_cons, splitGo_nil, isLineBreakPy,
    procLine, bulletHead, joinNL, countNL, afterLastNL, List.intercalate,
    List.intersperse]

/-- C9 counterexample: on input `"***a****b***"` the normalizer emits
`"**a***b***"`, which still contains the triple-asterisk emphasis `***b***` —
the output is not free of triple-asterisk emphasis, contradicting the claim
that normalization rewrites all triple-asterisk emphasis to double. -/
theorem C9_counterexample_triple_emph_survives :
    HasTripleEmph (format_response "***a****b***" false).data := by
  rw [format_counterexample_eval]
  refine ⟨['*', '*', 'a'], ['b'], [], by decide, by decide, ?_⟩
  intro c hc
  simp only [List.mem_singleton] at hc
  subst hc
  decide

/-- C9 (amended): for every non-blank input, the normalized output contains no
run of four `#` (headings are truncated to three), no line beginning with a
bullet glyph `•`/`*`/`·` followed by whitespace (such lines are rewritten to
`- ` bullets), and no three newlines separated only by whitespace (no run of
more than one blank line); and the emphasis pass is a single left-to-right
sweep: it is the identity on text without a `***w***` group, and rewrites the
leftmost group `***w***` (`w` nonempty and star-free) to `**w**`, continuing
only after it — so overlapping or adjacent star runs, as in `"***a****b***"`,
can leave triple asterisks in the output. -/
theorem C9_amended_normalization (s : String) (h : s.data.all isSpacePy = false) :
    ¬ HasQuadHash (format_response s false).data ∧
    ¬ HasBadBullet true (format_response s false).data ∧
    ¬ HasTripleNewline (format_response s false).data ∧
    (∀ l, ¬ HasTripleEmph l → subTripleGo l = l) ∧
    (∀ u w v, StarFree u → w ≠ [] → StarFree w →
      subTripleGo (u ++ '*' :: '*' :: '*' :: (w ++ '*' :: '*' :: '*' :: v)) =
        u ++ '*' :: '*' :: (w ++ '*' :: '*' :: subTripleGo v)) :=
  ⟨format_no_quad s false, format_no_bb s false, format_no_tnl s h false,
    subTriple_id, subTriple_rewrite⟩

/-- C9 witness: the amended theorem applied at the concrete non-blank input
`"diet"`. -/
theorem C9_amended_normalization_witness :
    ("diet" : String).data.all isSpacePy = false ∧
    ¬ HasTripleNewline (format_response "diet" false).data :=
  ⟨by decide, (C9_amended_normalization "diet" (by decide)).2.2.1⟩

end DietBot
